import Mathlib

/-
Verification development for the multi-language code chunker of the
codebase-qa repository (backend/utils/code_parser.py).

Source text is modelled as `List Char`.  `str.splitlines()` and
`str.strip()` are modelled with their full Unicode semantics: `splitlines`
breaks at every Python line-boundary character (newline, vertical tab,
form feed, carriage return, the file/group/record separators 0x1c-0x1e,
NEL 0x85 and the Unicode line/paragraph separators 0x2028/0x2029, with
CR LF counting as a single break), and `strip` removes every character for
which `str.isspace()` holds.  Universal-newline reading only normalises
carriage returns to newlines; the other break characters reach the
extractors unchanged.  External engines (CPython's `ast.parse`, the `re`
regex engine for the Java/JavaScript patterns) are modelled as oracle
inputs; everything computed by the repository's own code is embedded
directly.
-/

namespace CodebaseQA

/-- Newline character (code 10). -/
def nlc : Char := Char.ofNat 10

/-- Double-quote character (code 34). -/
def dquote : Char := Char.ofNat 34

/-- Single-quote character (code 39). -/
def squote : Char := Char.ofNat 39

/-- Backslash character (code 92). -/
def bslash : Char := Char.ofNat 92

/-- Opening curly brace character (code 123). -/
def lbrace : Char := Char.ofNat 123

/-- Closing curly brace character (code 125). -/
def rbrace : Char := Char.ofNat 125

/-- Tag-opening angle character (code 60). -/
def ltc : Char := Char.ofNat 60

/-- Tag-closing angle character (code 62). -/
def gtc : Char := Char.ofNat 62

/-- Forward slash character (code 47). -/
def slashc : Char := Char.ofNat 47

/-- Dot character (code 46). -/
def dotc : Char := Char.ofNat 46

/-- Full split of a character list at every occurrence of a separator
character: models Python's `str.split` with a one-character separator.  A
trailing separator produces a trailing empty piece. -/
def splitCh (sep : Char) : List Char → List (List Char)
  | [] => [[]]
  | c :: rest =>
    if c = sep then [] :: splitCh sep rest
    else
      match splitCh sep rest with
      | [] => [[c]]
      | p :: ps => (c :: p) :: ps

/-- Carriage-return character (code 13). -/
def crc : Char := Char.ofNat 13

/-- The characters at which Python's `str.splitlines()` breaks a line:
LF, VT, FF, CR, FS, GS, RS (0x1c-0x1e), NEL (0x85) and the Unicode line
and paragraph separators (0x2028, 0x2029). -/
def isLineBreak (c : Char) : Bool :=
  c.toNat = 10 || c.toNat = 11 || c.toNat = 12 || c.toNat = 13 ||
  c.toNat = 28 || c.toNat = 29 || c.toNat = 30 || c.toNat = 133 ||
  c.toNat = 8232 || c.toNat = 8233

/-- Models Python's `str.splitlines()`: the text is cut at every
line-break character (with a CR LF pair counting as a single break); an
empty string gives no lines, and a trailing break does not create an
extra empty line. -/
def pySplitlines : List Char → List (List Char)
  | [] => []
  | c :: rest =>
    if isLineBreak c then
      if c = crc then
        match rest with
        | [] => [[]]
        | d :: r2 =>
          if d = nlc then [] :: pySplitlines r2
          else [] :: pySplitlines (d :: r2)
      else [] :: pySplitlines rest
    else
      match pySplitlines rest with
      | [] => [[c]]
      | p :: ps => (c :: p) :: ps

/-- Models `"\n".join(pieces)`. -/
def joinNl : List (List Char) → List Char
  | [] => []
  | [p] => p
  | p :: q :: r => p ++ nlc :: joinNl (q :: r)

/-- Total number of lines of a file, `len(content.splitlines())`. -/
def numLines (l : List Char) : Nat := (pySplitlines l).length

/-- Models `content[:k].count('\n') + 1`, the 1-based line number of
character offset `k` as computed throughout the source. -/
def lineOf (content : List Char) (k : Nat) : Nat :=
  (content.take k).count nlc + 1

/-- The characters removed by Python's `str.strip()`, i.e. exactly those
for which `str.isspace()` holds: TAB through CR, FS through US
(0x1c-0x1f), space, NEL (0x85), no-break space (0xa0), Ogham space mark
(0x1680), the en-quad family (0x2000-0x200a), the line and paragraph
separators (0x2028, 0x2029), narrow no-break space (0x202f), medium
mathematical space (0x205f) and ideographic space (0x3000). -/
def isPyWs (c : Char) : Bool :=
  (9 ≤ c.toNat && c.toNat ≤ 13) || (28 ≤ c.toNat && c.toNat ≤ 32) ||
  c.toNat = 133 || c.toNat = 160 || c.toNat = 5760 ||
  (8192 ≤ c.toNat && c.toNat ≤ 8202) || c.toNat = 8232 ||
  c.toNat = 8233 || c.toNat = 8239 || c.toNat = 8287 || c.toNat = 12288

/-- Models the test `not content.strip()`: true iff every character is
whitespace (in particular for the empty text). -/
def isBlank (l : List Char) : Bool := l.all isPyWs

/-- Values stored in a chunk's metadata mapping: strings, lists of strings
(decorators, bases, argument names) and booleans (`is_async`). -/
inductive MetaVal where
  | s (v : String)
  | ls (v : List String)
  | b (v : Bool)
deriving DecidableEq, Repr

/-- The `CodeChunk` dataclass of the source. -/
structure CodeChunk where
  content : List Char
  filepath : String
  language : String
  project : String
  chunk_type : String
  name : String
  start_line : Nat
  end_line : Nat
  metadata : List (String × MetaVal)
deriving DecidableEq, Repr

/-- The derived `CodeChunk.id`: `f"{self.filepath}::{self.name}::{self.start_line}"`. -/
def chunkId (c : CodeChunk) : String :=
  c.filepath ++ "::" ++ c.name ++ "::" ++ toString c.start_line

/-- Supported file extensions (`SUPPORTED_EXTENSIONS`). -/
def SUPPORTED_EXTENSIONS : List String := [".java", ".py", ".vue", ".js"]

/-- Directory names ignored by the scanner (`IGNORE_DIRS`). -/
def IGNORE_DIRS : List String :=
  ["node_modules", ".git", "__pycache__", ".venv", "venv",
   "dist", "build", ".next", ".nuxt", "target", ".idea",
   ".gradle", "out", "bin", ".settings"]

/-- The configured codebase root (`CODE_BASE_PATH`). -/
def CODE_BASE_PATH : String := "/Volumes/DEV_DATA/code"

/-- Last path component of a path string (the file name, as pathlib's
`PurePath.name` for a plain slash-separated path). -/
def lastComponent (path : String) : String :=
  String.mk ((splitCh slashc path.toList).getLastD [])

/-- Index of the last dot in a character list, if any. -/
def lastDotIdx (s : List Char) : Option Nat :=
  ((List.range s.length).filter (fun i => decide (s[i]? = some dotc))).getLast?

/-- Models pathlib's `PurePath.suffix`: the final component's extension
from its last dot, empty when the dot is the first or last character of
the name. -/
def pathSuffix (path : String) : String :=
  let nm := (lastComponent path).toList
  match lastDotIdx nm with
  | some i => if 0 < i ∧ i + 1 < nm.length then String.mk (nm.drop i) else ""
  | none => ""

/-- Models pathlib's `PurePath.stem`: the final component without its suffix. -/
def pathStem (path : String) : String :=
  let nm := (lastComponent path).toList
  match lastDotIdx nm with
  | some i => if 0 < i ∧ i + 1 < nm.length then String.mk (nm.take i) else String.mk nm
  | none => String.mk nm

/-- Models `get_project_name`: first path component relative to
`CODE_BASE_PATH`, or `"unknown"` when the file is not under the root. -/
def getProjectName (path : String) : String :=
  let baseParts := splitCh slashc CODE_BASE_PATH.toList
  let parts := splitCh slashc path.toList
  if baseParts.isPrefixOf parts ∧ baseParts.length < parts.length then
    String.mk (parts.getD baseParts.length [])
  else "unknown"

/-- ASCII lower-casing of one character, as `str.lower` acts on the
ASCII range (file suffixes; the source's extension sets are ASCII). -/
def lowerChar (c : Char) : Char :=
  if 65 ≤ c.toNat ∧ c.toNat ≤ 90 then Char.ofNat (c.toNat + 32) else c

/-- Models `str.lower()` on ASCII text such as file suffixes. -/
def strLower (s : String) : String := String.mk (s.toList.map lowerChar)

/-- Scan state of `find_matching_brace`: the nesting counter, the
in-string flag, the quote character that opened the current literal, and
the previously scanned character (`content[i-1]`, `none` at offset 0). -/
structure BraceSt where
  braceCount : Int
  inString : Bool
  stringChar : Option Char
  prev : Option Char
deriving DecidableEq, Repr

/-- String-literal bookkeeping of one loop iteration of
`find_matching_brace`: a quote character toggles the in-string state when
the previous character is not a backslash. -/
def quoteStep (st : BraceSt) (c : Char) : Bool × Option Char :=
  if (c = dquote ∨ c = squote) ∧ st.prev.all (fun p => p != bslash) then
    if st.inString = false then (true, some c)
    else if some c = st.stringChar then (false, st.stringChar)
    else (st.inString, st.stringChar)
  else (st.inString, st.stringChar)

/-- Full state update of one loop iteration of `find_matching_brace`
(without the early return): quote handling, then the counter update on
braces seen outside string literals. -/
def braceStep (st : BraceSt) (c : Char) : BraceSt :=
  let q := quoteStep st c
  let cnt :=
    if q.1 = false then
      if c = lbrace then st.braceCount + 1
      else if c = rbrace then st.braceCount - 1
      else st.braceCount
    else st.braceCount
  ⟨cnt, q.1, q.2, some c⟩

/-- The scanning loop of `find_matching_brace`, over the remaining text
with the absolute offset `i` of its head: returns the offset at which the
source's `return i` fires, or `none` when the loop runs off the end. -/
def fmbGo : List Char → Nat → BraceSt → Option Nat
  | [], _, _ => none
  | c :: rest, i, st =>
    let q := quoteStep st c
    if q.1 = false then
      if c = lbrace then
        fmbGo rest (i + 1) ⟨st.braceCount + 1, q.1, q.2, some c⟩
      else if c = rbrace then
        if st.braceCount - 1 = 0 then some i
        else fmbGo rest (i + 1) ⟨st.braceCount - 1, q.1, q.2, some c⟩
      else fmbGo rest (i + 1) ⟨st.braceCount, q.1, q.2, some c⟩
    else fmbGo rest (i + 1) ⟨st.braceCount, q.1, q.2, some c⟩

/-- Initial scan state at `start_pos`: counter 0, not in a string, and the
previous character taken from the text (absent at offset 0). -/
def initBraceSt (content : List Char) (startPos : Nat) : BraceSt :=
  ⟨0, false, none, if startPos = 0 then none else content[startPos - 1]?⟩

/-- Models `find_matching_brace(content, start_pos)`: scans forward from
`start_pos`; on failure returns `len(content) - 1` (an `Int`, as Python's
value is `-1` for empty text). -/
def findMatchingBrace (content : List Char) (startPos : Nat) : Int :=
  match fmbGo (content.drop startPos) startPos (initBraceSt content startPos) with
  | some j => (j : Int)
  | none => (content.length : Int) - 1

/-- State of the scan after processing `k` characters of the suffix
starting at `startPos`, expressed as a fold (no early return). -/
def braceStateAt (content : List Char) (startPos k : Nat) : BraceSt :=
  ((content.drop startPos).take k).foldl braceStep (initBraceSt content startPos)

/-- Return condition of the scan at relative offset `k`, on the state so
far: the character is a closing brace seen outside any string literal and
it brings the nesting counter from 1 back to 0. -/
def retB (st : BraceSt) (oc : Option Char) : Bool :=
  oc == some rbrace && !st.inString && st.braceCount == 1

/-- Spec-level description of the brace matcher (from the spec's words):
the first offset at or after `start_pos` whose character is a closing
brace outside any string literal that brings the nesting counter back to
zero; if no such offset exists before end-of-text, the last valid offset
`len(content) - 1`. -/
def braceMatchSpec (content : List Char) (startPos : Nat) : Int :=
  match (List.range (content.length - startPos)).find?
      (fun k => retB (braceStateAt content startPos k) (content.drop startPos)[k]?) with
  | some k => ((startPos + k : Nat) : Int)
  | none => (content.length : Int) - 1

/-- Models `content.find(ch, start)`: smallest offset `j ≥ start` whose
character is `ch`; `none` models Python's `-1`. -/
def findCharFrom (content : List Char) (ch : Char) (start : Nat) : Option Nat :=
  (List.range content.length).find?
    (fun j => decide (start ≤ j) && decide (content[j]? = some ch))

/-- First offset `j ≥ start` at which `pat` occurs as a contiguous block
of `content`. -/
def findSub (content pat : List Char) (start : Nat) : Option Nat :=
  (List.range (content.length + 1)).find?
    (fun j => decide (start ≤ j) && pat.isPrefixOf (content.drop j))

/-- A regex match of `JAVA_CLASS_PATTERN`: start and end offsets of the
matched text, the type keyword (group 3), the identifier (group 4) and
the stripped modifier text (group 2).  The Python `re` engine itself is
external; matches enter the model as inputs. -/
structure JMatch where
  mstart : Nat
  mend : Nat
  kind : String
  jname : String
  modifiers : String
deriving DecidableEq, Repr

/-- A regex match of one of the JavaScript patterns: start and end
offsets of the matched text and the captured identifier (group 2). -/
structure NMatch where
  mstart : Nat
  mend : Nat
  jname : String
deriving DecidableEq, Repr

/-- Models `parse_java`: one chunk per class-pattern match (skipped when
no opening brace follows the match), else a whole-file fallback chunk. -/
def parseJava (path stem project : String) (content : List Char)
    (ms : List JMatch) : List CodeChunk :=
  let lines := pySplitlines content
  let chunks := ms.filterMap (fun m =>
    match findCharFrom content lbrace m.mend with
    | none => none
    | some bracePos =>
      -- find_matching_brace is called with a valid brace offset here, so
      -- its Int result is the nonnegative end offset.
      let endPos := (findMatchingBrace content bracePos).toNat
      some { content := (content.drop m.mstart).take (endPos + 1 - m.mstart),
             filepath := path, language := "java", project := project,
             chunk_type := m.kind, name := m.jname,
             start_line := lineOf content m.mstart,
             end_line := lineOf content endPos,
             metadata := [("modifiers", .s m.modifiers)] })
  if chunks = [] then
    [{ content := content, filepath := path, language := "java",
       project := project, chunk_type := "file", name := stem,
       start_line := 1, end_line := lines.length, metadata := [] }]
  else chunks

/-- One JavaScript chunk from a pattern match: the source locates the
opening brace from `match.end() - 1` (the matched text itself ends in a
brace, so the offset is always found; Python would otherwise fall into
negative indexing, which is unreachable for these patterns and modelled
as a skip). -/
def jsChunkOf (path : String) (ctype : String) (content : List Char)
    (m : NMatch) : Option CodeChunk :=
  match findCharFrom content lbrace (m.mend - 1) with
  | none => none
  | some bracePos =>
    let endPos := (findMatchingBrace content bracePos).toNat
    some { content := (content.drop m.mstart).take (endPos + 1 - m.mstart),
           filepath := path, language := "javascript",
           project := getProjectName path,
           chunk_type := ctype, name := m.jname,
           start_line := lineOf content m.mstart,
           end_line := lineOf content endPos,
           metadata := [] }

/-- Models `parse_javascript`: class matches, then plain function
matches, then arrow-function matches, else a whole-file fallback chunk. -/
def parseJavascript (path stem project : String) (content : List Char)
    (classMatches funcMatches arrowMatches : List NMatch) : List CodeChunk :=
  let lines := pySplitlines content
  let chunks :=
    classMatches.filterMap (jsChunkOf path "class" content) ++
    funcMatches.filterMap (jsChunkOf path "function" content) ++
    arrowMatches.filterMap (jsChunkOf path "function" content)
  if chunks = [] then
    [{ content := content, filepath := path, language := "javascript",
       project := project, chunk_type := "file", name := stem,
       start_line := 1, end_line := lines.length, metadata := [] }]
  else chunks

/-- Attempted match of the pattern `<tag[^>]*>(.*?)</tag>` anchored at
offset `s` (dot matches newline): the text at `s` must start with the
opening tag name, the attribute run extends to the first closing angle,
and the lazy body ends at the earliest following close tag.  Returns the
exclusive end offset of the whole match. -/
def tagMatchAt (content tag : List Char) (s : Nat) : Option Nat :=
  let openPre := ltc :: tag
  if openPre.isPrefixOf (content.drop s) then
    match findCharFrom content gtc (s + openPre.length) with
    | none => none
    | some g =>
      let closePat := ltc :: slashc :: (tag ++ [gtc])
      match findSub content closePat (g + 1) with
      | none => none
      | some cpos => some (cpos + closePat.length)
  else none

/-- Models `re.search` for the Vue section patterns: the leftmost offset
at which the tag pattern matches, with the match's end offset. -/
def tagSearch (content tag : List Char) : Option (Nat × Nat) :=
  match (List.range content.length).find? (fun s => (tagMatchAt content tag s).isSome) with
  | some s => (tagMatchAt content tag s).map (fun e => (s, e))
  | none => none

/-- One Vue section chunk for a matched section (`script` or
`template`): the chunk content is `match.group(0)`, the literal slice of
the match. -/
def vueSectionChunk (path stem project sect : String) (content : List Char)
    (se : Nat × Nat) : CodeChunk :=
  { content := (content.drop se.1).take (se.2 - se.1),
    filepath := path, language := "vue", project := project,
    chunk_type := sect, name := stem ++ "::" ++ sect,
    start_line := lineOf content se.1,
    end_line := lineOf content se.2,
    metadata := [("section", .s sect)] }

/-- Models `parse_vue`: the first script section match, then the first
template section match, else a whole-file `component` fallback chunk. -/
def parseVue (path stem project : String) (content : List Char) : List CodeChunk :=
  let lines := pySplitlines content
  let scriptChunks :=
    match tagSearch content ("script".toList) with
    | some se => [vueSectionChunk path stem project "script" content se]
    | none => []
  let templateChunks :=
    match tagSearch content ("template".toList) with
    | some se => [vueSectionChunk path stem project "template" content se]
    | none => []
  let chunks := scriptChunks ++ templateChunks
  if chunks = [] then
    [{ content := content, filepath := path, language := "vue",
       project := project, chunk_type := "component", name := stem,
       start_line := 1, end_line := lines.length, metadata := [] }]
  else chunks

/-- Abstract syntax-tree nodes of a parsed Python module, as far as the
chunker inspects them: class definitions, function definitions (with the
async flag), and any other statement that may carry nested definitions.
Decorator and base expressions appear as their `ast.unparse` text, and
`args` lists the positional argument names. -/
inductive PyNode where
  | classDef (name : String) (lineno endLineno : Nat)
      (decorators bases : List String) (body : List PyNode)
  | funcDef (name : String) (lineno endLineno : Nat) (isAsync : Bool)
      (decorators args : List String) (body : List PyNode)
  | stmt (body : List PyNode)

/-- Child statement nodes of a node, as enumerated by
`ast.iter_child_nodes` restricted to statements (expression children can
never be class or function definitions). -/
def PyNode.children : PyNode → List PyNode
  | .classDef _ _ _ _ _ body => body
  | .funcDef _ _ _ _ _ _ body => body
  | .stmt body => body

mutual

/-- Structural equality of modelled nodes.  CPython's `child is node`
test compares object identity; distinct definition statements of one
parse always differ in position, so structural equality of the modelled
nodes coincides with identity on well-formed trees. -/
def pyEq : PyNode → PyNode → Bool
  | .classDef n1 l1 e1 d1 bs1 b1, .classDef n2 l2 e2 d2 bs2 b2 =>
    n1 == n2 && l1 == l2 && e1 == e2 && d1 == d2 && bs1 == bs2 && pyEqL b1 b2
  | .funcDef n1 l1 e1 a1 d1 g1 b1, .funcDef n2 l2 e2 a2 d2 g2 b2 =>
    n1 == n2 && l1 == l2 && e1 == e2 && a1 == a2 && d1 == d2 && g1 == g2 && pyEqL b1 b2
  | .stmt b1, .stmt b2 => pyEqL b1 b2
  | _, _ => false

/-- Structural equality of node lists. -/
def pyEqL : List PyNode → List PyNode → Bool
  | [], [] => true
  | x :: xs, y :: ys => pyEq x y && pyEqL xs ys
  | _, _ => false

end

instance : BEq PyNode := ⟨pyEq⟩

mutual

/-- Structural size of a node, used to justify the walk's termination. -/
def pySize : PyNode → Nat
  | .classDef _ _ _ _ _ body => 1 + pySizeL body
  | .funcDef _ _ _ _ _ _ body => 1 + pySizeL body
  | .stmt body => 1 + pySizeL body

/-- Structural size of a list of nodes. -/
def pySizeL : List PyNode → Nat
  | [] => 0
  | n :: r => pySize n + pySizeL r

end

/-- Fuel-bounded breadth-first enumeration, level by level: the queue is
emitted, then the walk continues on the concatenation of all children.
Structural recursion on the fuel keeps the function kernel-computable;
`walkBFS` supplies fuel that is always sufficient. -/
def walkGo : Nat → List PyNode → List PyNode
  | 0, _ => []
  | _ + 1, [] => []
  | fuel + 1, n :: rest => (n :: rest) ++ walkGo fuel ((n :: rest).flatMap PyNode.children)

/-- Models `ast.walk`: breadth-first enumeration of all nodes reachable
from the queue (a queue that pops from the front and appends children at
the back yields exactly level order).  Each level of descent strictly
shrinks `pySizeL`, so `pySizeL q + 1` fuel always runs the walk to
completion. -/
def walkBFS (q : List PyNode) : List PyNode :=
  walkGo (pySizeL q + 1) q

/-- Models the parent search of `parse_python`: whether some class
definition among the walked nodes has `n` among its direct children.
CPython compares nodes by object identity; distinct definition
statements in one parse differ in position, so structural equality on
the modelled nodes coincides with identity for well-formed trees. -/
def hasClassParent (nodes : List PyNode) (n : PyNode) : Bool :=
  nodes.any (fun p =>
    match p with
    | .classDef _ _ _ _ _ body => body.contains n
    | _ => false)

/-- The chunk `parse_python` emits for one walked node: every class
definition yields a `class` chunk; a function definition yields a
`function` chunk unless some class has it as a direct child; other
statements yield nothing.  The chunk content is
`"\n".join(lines[lineno - 1 : end_lineno])`. -/
def pyChunkOf (path project : String) (lines : List (List Char))
    (nodes : List PyNode) (n : PyNode) : Option CodeChunk :=
  match n with
  | .classDef cname l e decs bases _ =>
    some { content := joinNl ((lines.drop (l - 1)).take (e - (l - 1))),
           filepath := path, language := "python", project := project,
           chunk_type := "class", name := cname,
           start_line := l, end_line := e,
           metadata := [("decorators", .ls decs), ("bases", .ls bases)] }
  | .funcDef fname l e isAsync decs args _ =>
    if hasClassParent nodes n then none
    else
      some { content := joinNl ((lines.drop (l - 1)).take (e - (l - 1))),
             filepath := path, language := "python", project := project,
             chunk_type := "function", name := fname,
             start_line := l, end_line := e,
             metadata := [("decorators", .ls decs), ("args", .ls args),
                          ("is_async", .b isAsync)] }
  | .stmt _ => none

/-- Models `parse_python`.  The result of `ast.parse` enters as an input:
either a syntax error message or the module body.  On error, a single
whole-file fallback chunk carrying `parse_error` metadata; on success,
one chunk per walked class definition and per function definition that
is not a direct child of a class; a whole-file fallback when no chunk
was produced. -/
def parsePython (path stem project : String) (content : List Char)
    (parseRes : Except String (List PyNode)) : List CodeChunk :=
  let lines := pySplitlines content
  match parseRes with
  | .error e =>
    [{ content := content, filepath := path, language := "python",
       project := project, chunk_type := "file", name := stem,
       start_line := 1, end_line := lines.length,
       metadata := [("parse_error", .s e)] }]
  | .ok body =>
    let nodes := walkBFS body
    let chunks := nodes.filterMap (pyChunkOf path project lines nodes)
    if chunks = [] then
      [{ content := content, filepath := path, language := "python",
         project := project, chunk_type := "file", name := stem,
         start_line := 1, end_line := lines.length, metadata := [] }]
    else chunks

/-- The exceptions `parse_file` catches while reading a file. -/
inductive ReadErr where
  | unicodeDecodeError (msg : String)
  | permissionError (msg : String)
  | fileNotFoundError (msg : String)
deriving DecidableEq, Repr

/-- A file presented to `parse_file`: its path and the outcome of
`read_text` (text, or one of the caught errors). -/
structure SrcFile where
  path : String
  read : Except ReadErr (List Char)

/-- The external engines `parse_file`'s extractors call, as fixed
deterministic functions of the file text: CPython's `ast.parse` and the
`re.finditer` runs of the Java and JavaScript patterns. -/
structure Oracles where
  pyParse : List Char → Except String (List PyNode)
  javaClassMatches : List Char → List JMatch
  jsClassMatches : List Char → List NMatch
  jsFuncMatches : List Char → List NMatch
  jsArrowMatches : List Char → List NMatch

/-- Models `parse_file`: empty on read failure, empty on blank content,
then dispatch on the lower-cased suffix; unsupported extensions give an
empty list. -/
def parseFile (or : Oracles) (f : SrcFile) : List CodeChunk :=
  match f.read with
  | .error _ => []
  | .ok content =>
    if isBlank content then []
    else
      let ext := strLower (pathSuffix f.path)
      let stem := pathStem f.path
      let project := getProjectName f.path
      if ext = ".py" then
        parsePython f.path stem project content (or.pyParse content)
      else if ext = ".java" then
        parseJava f.path stem project content (or.javaClassMatches content)
      else if ext = ".vue" then
        parseVue f.path stem project content
      else if ext = ".js" then
        parseJavascript f.path stem project content
          (or.jsClassMatches content) (or.jsFuncMatches content)
          (or.jsArrowMatches content)
      else []

/-- A directory in a filesystem tree: its name, subdirectories and the
names of the plain files it holds. -/
inductive FsTree where
  | node (dname : String) (subdirs : List FsTree) (files : List String)
deriving Repr

/-- Name of a directory. -/
def FsTree.dirName : FsTree → String
  | .node n _ _ => n

mutual

/-- Structural size of a directory tree. -/
def fsSize : FsTree → Nat
  | .node _ subdirs _ => 1 + fsSizeL subdirs

/-- Structural size of a list of directory trees. -/
def fsSizeL : List FsTree → Nat
  | [] => 0
  | t :: r => fsSize t + fsSizeL r

end

/-- Fuel-bounded walk of one directory (structural recursion on the
fuel, which `scanWalk` always supplies in sufficient amount): the
ignore-set filter is applied to the subdirectory list before descending,
and a file is kept when its suffix is in the supported set.  Paths are
returned as segment lists relative to the scan root. -/
def scanGo : Nat → List String → FsTree → List (List String)
  | 0, _, _ => []
  | fuel + 1, pre, .node _ subdirs files =>
    let keptFiles := (files.filter
      (fun fn => decide (pathSuffix fn ∈ SUPPORTED_EXTENSIONS))).map
      (fun fn => pre ++ [fn])
    let keptDirs := subdirs.filter (fun t => decide (FsTree.dirName t ∉ IGNORE_DIRS))
    keptFiles ++ keptDirs.flatMap (fun t => scanGo fuel (pre ++ [FsTree.dirName t]) t)

/-- Models the walk of `scan_files` from one directory: a subdirectory's
size is strictly below its parent's, so `fsSize t` fuel runs the walk to
completion. -/
def scanWalk (pre : List String) (t : FsTree) : List (List String) :=
  scanGo (fsSize t) pre t

/-- Models `scan_files`: an absent root yields the empty list (after a
warning); otherwise the recursive walk from the root. -/
def scanFiles (root : Option FsTree) : List (List String) :=
  match root with
  | none => []
  | some t => scanWalk [] t

/-- A file exists in the tree at the given chain of subdirectory names. -/
inductive HasFile : FsTree → List String → String → Prop where
  | here {n : String} {subdirs : List FsTree} {files : List String} {fn : String} :
      fn ∈ files → HasFile (.node n subdirs files) [] fn
  | there {n : String} {subdirs : List FsTree} {files : List String}
      {t : FsTree} {ds : List String} {fn : String} :
      t ∈ subdirs → HasFile t ds fn →
      HasFile (.node n subdirs files) (t.dirName :: ds) fn

/-- The characters `x` occur as one contiguous, unmodified block inside
`l`. -/
def isSliceOf (x l : List Char) : Prop := ∃ s t, s ++ x ++ t = l

/-- Executable contiguous-slice check: whether `x` occurs somewhere in
`l` as an unbroken run of characters. -/
def isSliceOfB (x l : List Char) : Bool :=
  (List.range (l.length + 1)).any (fun i => x.isPrefixOf (l.drop i))

/-- Fallback chunk type of a language: `component` for Vue, `file`
otherwise. -/
def fallbackChunkType (ext : String) : String :=
  if ext = ".vue" then "component" else "file"

/-- The structural chunks of a successfully parsed Python module, before
the fallback test of `parse_python`. -/
def pyStructChunks (path project : String) (content : List Char)
    (body : List PyNode) : List CodeChunk :=
  (walkBFS body).filterMap (pyChunkOf path project (pySplitlines content) (walkBFS body))

/-- The language-specific structural search of the dispatched extractor
found nothing: a failed parse or no emitted definitions for Python, no
class-pattern matches for Java, no pattern matches at all for
JavaScript, and neither section tag for Vue. -/
def structSearchEmpty (or : Oracles) (f : SrcFile) (content : List Char) : Prop :=
  let ext := strLower (pathSuffix f.path)
  (ext = ".py" →
    (∃ e, or.pyParse content = Except.error e) ∨
    (∀ body, or.pyParse content = Except.ok body →
      pyStructChunks f.path (getProjectName f.path) content body = [])) ∧
  (ext = ".java" → or.javaClassMatches content = []) ∧
  (ext = ".js" → or.jsClassMatches content = [] ∧ or.jsFuncMatches content = [] ∧
    or.jsArrowMatches content = []) ∧
  (ext = ".vue" → tagSearch content ("script".toList) = none ∧
    tagSearch content ("template".toList) = none)

/-- Well-formedness of a Java class-pattern match: a regex match of the
text satisfies `start ≤ end ≤ len`. -/
def ValidJMatch (content : List Char) (m : JMatch) : Prop :=
  m.mstart ≤ m.mend ∧ m.mend ≤ content.length

/-- Well-formedness of a JavaScript pattern match: the patterns all match
at least one character, so `start < end ≤ len`. -/
def ValidNMatch (content : List Char) (m : NMatch) : Prop :=
  m.mstart < m.mend ∧ m.mend ≤ content.length

/-- Line-number sanity of one syntax-tree node, as CPython's parser
guarantees for real parses: definitions carry
`1 ≤ lineno ≤ end_lineno ≤ number of lines`. -/
def nodeLinesOk (content : List Char) : PyNode → Prop
  | .classDef _ l e _ _ _ => 1 ≤ l ∧ l ≤ e ∧ e ≤ numLines content
  | .funcDef _ l e _ _ _ _ => 1 ≤ l ∧ l ≤ e ∧ e ≤ numLines content
  | .stmt _ => True

/-- The oracle outputs satisfy the guarantees the real external engines
provide on this text. -/
def ValidOracles (or : Oracles) (content : List Char) : Prop :=
  (∀ m ∈ or.javaClassMatches content, ValidJMatch content m) ∧
  (∀ m ∈ or.jsClassMatches content, ValidNMatch content m) ∧
  (∀ m ∈ or.jsFuncMatches content, ValidNMatch content m) ∧
  (∀ m ∈ or.jsArrowMatches content, ValidNMatch content m) ∧
  (∀ body, or.pyParse content = Except.ok body →
    ∀ n ∈ walkBFS body, nodeLinesOk content n)

/-- The spec's brace-matching example text, `{ a "}" b }`. -/
def braceExample : List Char :=
  [lbrace, Char.ofNat 32, 'a', Char.ofNat 32, dquote, rbrace, dquote,
   Char.ofNat 32, 'b', Char.ofNat 32, rbrace]

/-- Oracle fixture whose engines find nothing (the parse result is never
consulted for non-Python files). -/
def oracleNone : Oracles :=
  ⟨fun _ => Except.error "unused", fun _ => [], fun _ => [], fun _ => [], fun _ => []⟩

/-- Fixture: a missing file. -/
def fileMissing : SrcFile :=
  ⟨"/Volumes/DEV_DATA/code/p/a.py", Except.error (ReadErr.fileNotFoundError "no such file")⟩

/-- Fixture: a whitespace-only Python file. -/
def fileBlankPy : SrcFile := ⟨"/x/blank.py", Except.ok (" \n".toList)⟩

/-- Fixture: a file with an unsupported extension. -/
def fileTxt : SrcFile := ⟨"/x/notes.txt", Except.ok ("hello".toList)⟩

/-- Fixture: a Vue file with no script and no template section. -/
def fileVuePlain : SrcFile := ⟨"/x/B.vue", Except.ok ("hello there".toList)⟩

/-- Fixture: a Vue source with a template section before a script
section. -/
def vueBothSrc : List Char :=
  "<template><div/></template><script>let x = 1</script>".toList

/-- Fixture: a Vue file with both sections, template first. -/
def fileVueBoth : SrcFile := ⟨"/x/B.vue", Except.ok vueBothSrc⟩

/-- Fixture: the Java source `class A {}`. -/
def javaSrc : List Char := "class A ".toList ++ [lbrace, rbrace]

/-- Fixture: a Java file holding `javaSrc`. -/
def fileJava : SrcFile := ⟨"/x/A.java", Except.ok javaSrc⟩

/-- Oracle fixture: the class-pattern match the Java regex produces on
`javaSrc` (the text `class A` at offsets 0–7). -/
def oracleJava : Oracles :=
  ⟨fun _ => Except.error "unused", fun _ => [⟨0, 7, "class", "A", ""⟩],
   fun _ => [], fun _ => [], fun _ => []⟩

/-- Fixture: the spec's Python scenario source. -/
def pyFooSrc : List Char :=
  "class Foo:\n    def bar(self):\n        pass\n\ndef baz():\n    pass\n".toList

/-- Fixture: the syntax tree CPython produces for `pyFooSrc` (class
`Foo` on lines 1–3 with method `bar`, function `baz` on lines 5–6). -/
def pyFooAst : List PyNode :=
  [.classDef "Foo" 1 3 [] [] [.funcDef "bar" 2 3 false [] ["self"] [.stmt []]],
   .funcDef "baz" 5 6 false [] [] [.stmt []]]

/-- Oracle fixture returning the `pyFooSrc` syntax tree. -/
def oracleFoo : Oracles :=
  ⟨fun _ => Except.ok pyFooAst, fun _ => [], fun _ => [], fun _ => [], fun _ => []⟩

/-- Fixture: a Python source with a class nested inside a class. -/
def pyNestSrc : List Char :=
  "class Outer:\n    class Inner:\n        pass".toList

/-- Fixture: the syntax tree CPython produces for `pyNestSrc`: class
`Outer` on lines 1–3 whose body holds class `Inner` on lines 2–3. -/
def pyNestAst : List PyNode :=
  [.classDef "Outer" 1 3 [] [] [.classDef "Inner" 2 3 [] [] [.stmt []]]]

/-- Fixture: a Python source that begins with a form-feed character.
`splitlines` breaks at the form feed while the AST line numbers count
only newlines, so the two numbering schemes disagree on this file. -/
def pyFfSrc : List Char := Char.ofNat 12 :: "def f():\n    pass\n".toList

/-- Fixture: the module body CPython's `ast.parse` returns for
`pyFfSrc`: one function definition spanning newline-counted lines 1-2. -/
def pyFfAst : List PyNode :=
  [.funcDef "f" 1 2 false [] [] [.stmt []]]

/-- Fixture: a directory tree with a `node_modules` subtree holding a
supported-extension file. -/
def treeEx : FsTree :=
  .node "root"
    [.node "node_modules" [] ["x.js"], .node "src" [] ["a.py", "b.txt"]]
    ["top.java"]

/-! ## Line splitting lemmas -/

theorem pySplitlines_not_break (c : Char) (rest : List Char)
    (h : isLineBreak c = false) :
    pySplitlines (c :: rest) =
      match pySplitlines rest with
      | [] => [[c]]
      | p :: ps => (c :: p) :: ps := by
  rw [pySplitlines.eq_def]
  simp [h]

theorem pySplitlines_break (c : Char) (rest : List Char)
    (h : isLineBreak c = true) (h2 : ¬(c = crc ∧ rest.head? = some nlc)) :
    pySplitlines (c :: rest) = [] :: pySplitlines rest := by
  by_cases hc : c = crc
  · subst hc
    cases rest with
    | nil => decide
    | cons d r2 =>
      have hd : ¬d = nlc := by
        intro hdn
        refine h2 ⟨rfl, ?_⟩
        rw [hdn]
        rfl
      rw [pySplitlines.eq_def]
      simp [h, hd]
  · rw [pySplitlines.eq_def]
    simp [h, hc]

theorem pySplitlines_crlf (rest : List Char) :
    pySplitlines (crc :: nlc :: rest) = [] :: pySplitlines rest := by
  have h1 : isLineBreak crc = true := by decide
  rw [pySplitlines.eq_def]
  simp [h1]

theorem pySplitlines_ne_nil (l : List Char) (h : l ≠ []) : pySplitlines l ≠ [] := by
  cases l with
  | nil => exact absurd rfl h
  | cons c rest =>
    by_cases hb : isLineBreak c = true
    · by_cases hcr : c = crc ∧ rest.head? = some nlc
      · obtain ⟨hc, hd⟩ := hcr
        subst hc
        cases rest with
        | nil => simp at hd
        | cons d r2 =>
          simp at hd
          subst hd
          rw [pySplitlines_crlf]
          simp
      · rw [pySplitlines_break c rest hb hcr]
        simp
    · rw [pySplitlines_not_break c rest (by simpa using hb)]
      split <;> simp

theorem numLines_pos (l : List Char) (h : l ≠ []) : 1 ≤ numLines l := by
  have hne := pySplitlines_ne_nil l h
  unfold numLines
  cases hm : pySplitlines l with
  | nil => exact absurd hm hne
  | cons p ps => simp

theorem numLines_singleton (c : Char) : numLines [c] = 1 := by
  by_cases hb : isLineBreak c = true
  · unfold numLines
    rw [pySplitlines_break c [] hb (by simp)]
    rfl
  · unfold numLines
    rw [pySplitlines_not_break c [] (by simpa using hb)]
    rfl

theorem numLines_not_break (c : Char) (rest : List Char)
    (h : isLineBreak c = false) (hr : rest ≠ []) :
    numLines (c :: rest) = numLines rest := by
  unfold numLines
  rw [pySplitlines_not_break c rest h]
  cases hm : pySplitlines rest with
  | nil => exact absurd hm (pySplitlines_ne_nil rest hr)
  | cons p ps => simp

theorem numLines_break (c : Char) (rest : List Char)
    (h : isLineBreak c = true) (h2 : ¬(c = crc ∧ rest.head? = some nlc)) :
    numLines (c :: rest) = 1 + numLines rest := by
  unfold numLines
  rw [pySplitlines_break c rest h h2]
  simp only [List.length_cons]
  omega

theorem numLines_crlf (rest : List Char) :
    numLines (crc :: nlc :: rest) = 1 + numLines rest := by
  unfold numLines
  rw [pySplitlines_crlf]
  simp only [List.length_cons]
  omega

theorem not_break_ne_nlc {c : Char} (h : isLineBreak c = false) : ¬c = nlc := by
  intro h0
  subst h0
  exact absurd h (by decide)

theorem count_take_le (l : List Char) (k : Nat) :
    (l.take k).count nlc ≤ l.count nlc := by
  conv_rhs => rw [← List.take_append_drop k l]
  rw [List.count_append]
  omega

theorem lineOf_mono (content : List Char) (a b : Nat) (h : a ≤ b) :
    lineOf content a ≤ lineOf content b := by
  unfold lineOf
  have h1 : content.take a = (content.take b).take a := by
    rw [List.take_take]
    congr 1
    omega
  rw [h1]
  have := count_take_le (content.take b) a
  omega

theorem lineOf_le_numLines_aux : ∀ (n : Nat) (content : List Char),
    content.length ≤ n → content ≠ [] → ∀ k, k ≤ content.length - 1 →
    (content.take k).count nlc + 1 ≤ numLines content := by
  intro n
  induction n with
  | zero =>
    intro content hlen hne k hk
    cases content with
    | nil => exact absurd rfl hne
    | cons c rest => simp at hlen
  | succ n ih =>
    intro content hlen hne k hk
    cases content with
    | nil => exact absurd rfl hne
    | cons c rest =>
      by_cases hb : isLineBreak c = true
      · by_cases hcr : c = crc ∧ rest.head? = some nlc
        · obtain ⟨hc, hd⟩ := hcr
          subst hc
          cases rest with
          | nil => simp at hd
          | cons d r2 =>
            simp at hd
            subst hd
            rw [numLines_crlf]
            cases k with
            | zero =>
              simp only [List.take_zero, List.count_nil]
              omega
            | succ k1 =>
              cases k1 with
              | zero =>
                rw [List.take_succ_cons, List.take_zero,
                    List.count_cons_of_ne (by decide : nlc ≠ crc), List.count_nil]
                omega
              | succ k2 =>
                have hr2 : k2 + 1 ≤ r2.length := by
                  simp only [List.length_cons] at hk
                  omega
                have hr2ne : r2 ≠ [] := by
                  intro h0
                  subst h0
                  simp at hr2
                have hih := ih r2 (by simp only [List.length_cons] at hlen; omega)
                  hr2ne k2 (by omega)
                rw [List.take_succ_cons, List.take_succ_cons,
                    List.count_cons_of_ne (by decide : nlc ≠ crc),
                    List.count_cons_self]
                omega
        · rw [numLines_break c rest hb hcr]
          cases k with
          | zero =>
            simp only [List.take_zero, List.count_nil]
            omega
          | succ k1 =>
            have hrne : rest ≠ [] := by
              intro h0
              subst h0
              simp only [List.length_cons, List.length_nil] at hk
              omega
            have hk1 : k1 ≤ rest.length - 1 := by
              simp only [List.length_cons] at hk
              omega
            have hih := ih rest (by simp only [List.length_cons] at hlen; omega) hrne k1 hk1
            rw [List.take_succ_cons]
            by_cases hcn : c = nlc
            · subst hcn
              rw [List.count_cons_self]
              omega
            · rw [List.count_cons_of_ne (fun h0 => hcn h0.symm)]
              omega
      · have hb2 : isLineBreak c = false := by simpa using hb
        cases rest with
        | nil =>
          have hk0 : k = 0 := by
            simp only [List.length_cons, List.length_nil] at hk
            omega
          subst hk0
          rw [numLines_singleton]
          simp only [List.take_zero, List.count_nil]
          omega
        | cons d r2 =>
          rw [numLines_not_break c (d :: r2) hb2 (by simp)]
          cases k with
          | zero =>
            simp only [List.take_zero, List.count_nil]
            have := numLines_pos (d :: r2) (by simp)
            omega
          | succ k1 =>
            have hk1 : k1 ≤ (d :: r2).length - 1 := by
              simp only [List.length_cons] at hk ⊢
              omega
            have hih := ih (d :: r2) (by simp only [List.length_cons] at hlen ⊢; omega)
              (by simp) k1 hk1
            rw [List.take_succ_cons,
                List.count_cons_of_ne (fun h0 => not_break_ne_nlc hb2 h0.symm)]
            omega

theorem lineOf_le_numLines (content : List Char) (k : Nat) (hne : content ≠ [])
    (hk : k ≤ content.length - 1) : lineOf content k ≤ numLines content := by
  unfold lineOf
  exact lineOf_le_numLines_aux content.length content (le_refl _) hne k hk

theorem count_last_le_numLines_aux : ∀ (n : Nat) (content : List Char),
    content.length ≤ n → ∀ c, content.getLast? = some c → isLineBreak c = false →
    content.count nlc + 1 ≤ numLines content := by
  intro n
  induction n with
  | zero =>
    intro content hlen c hlast hc
    cases content with
    | nil => simp at hlast
    | cons x rest => simp at hlen
  | succ n ih =>
    intro content hlen c hlast hc
    cases content with
    | nil => simp at hlast
    | cons c0 rest =>
      cases rest with
      | nil =>
        have hc0 : c0 = c := by simpa using hlast
        subst hc0
        rw [numLines_singleton]
        rw [List.count_cons_of_ne (fun h0 => not_break_ne_nlc hc h0.symm), List.count_nil]
      | cons d r2 =>
        have hlast2 : (d :: r2).getLast? = some c := by
          rw [List.getLast?_cons_cons] at hlast
          exact hlast
        have hlen2 : (d :: r2).length ≤ n := by
          simp only [List.length_cons] at hlen ⊢
          omega
        by_cases hb : isLineBreak c0 = true
        · by_cases hcr : c0 = crc ∧ (d :: r2).head? = some nlc
          · obtain ⟨hc0, hd⟩ := hcr
            subst hc0
            simp at hd
            subst hd
            rw [numLines_crlf]
            have hr2ne : r2 ≠ [] := by
              intro h0
              subst h0
              simp at hlast2
              subst hlast2
              exact absurd hc (by decide)
            have hlast3 : r2.getLast? = some c := by
              cases r2 with
              | nil => exact absurd rfl hr2ne
              | cons e r3 =>
                rw [List.getLast?_cons_cons] at hlast2
                exact hlast2
            have hih := ih r2 (by simp only [List.length_cons] at hlen; omega) c hlast3 hc
            rw [List.count_cons_of_ne (by decide : nlc ≠ crc), List.count_cons_self]
            omega
          · rw [numLines_break c0 (d :: r2) hb hcr]
            have hih := ih (d :: r2) hlen2 c hlast2 hc
            by_cases hcn : c0 = nlc
            · subst hcn
              rw [List.count_cons_self]
              omega
            · rw [List.count_cons_of_ne (fun h0 => hcn h0.symm)]
              omega
        · have hb2 : isLineBreak c0 = false := by simpa using hb
          rw [numLines_not_break c0 (d :: r2) hb2 (by simp)]
          have hih := ih (d :: r2) hlen2 c hlast2 hc
          rw [List.count_cons_of_ne (fun h0 => not_break_ne_nlc hb2 h0.symm)]
          omega

theorem lineOf_length_le_numLines (content : List Char) (c : Char)
    (hlast : content.getLast? = some c) (hc : isLineBreak c = false) :
    lineOf content content.length ≤ numLines content := by
  unfold lineOf
  rw [List.take_length]
  exact count_last_le_numLines_aux content.length content (le_refl _) c hlast hc

theorem isPrefixOf_ex {pat l : List Char} (h : pat.isPrefixOf l = true) :
    ∃ t, pat ++ t = l := by
  induction pat generalizing l with
  | nil => exact ⟨l, rfl⟩
  | cons c cs ih =>
    cases l with
    | nil => simp [List.isPrefixOf] at h
    | cons d ds =>
      simp only [List.isPrefixOf, Bool.and_eq_true, beq_iff_eq] at h
      obtain ⟨rfl, h2⟩ := h
      obtain ⟨t, ht⟩ := ih h2
      exact ⟨t, by rw [List.cons_append, ht]⟩

theorem isPrefixOf_self_append (x t : List Char) : x.isPrefixOf (x ++ t) = true := by
  induction x with
  | nil => simp [List.isPrefixOf]
  | cons c cs ih => simp [List.isPrefixOf, ih]

theorem isSliceOfB_iff (x l : List Char) : isSliceOfB x l = true ↔ isSliceOf x l := by
  constructor
  · intro h
    unfold isSliceOfB at h
    rw [List.any_eq_true] at h
    obtain ⟨i, hi, hp⟩ := h
    obtain ⟨t, ht⟩ := isPrefixOf_ex hp
    refine ⟨l.take i, t, ?_⟩
    rw [List.append_assoc, ht, List.take_append_drop]
  · rintro ⟨s, t, rfl⟩
    unfold isSliceOfB
    rw [List.any_eq_true]
    refine ⟨s.length, ?_, ?_⟩
    · rw [List.mem_range]
      simp only [List.length_append]
      omega
    · rw [List.append_assoc, List.drop_left]
      exact isPrefixOf_self_append x t

/-! ## Brace matcher lemmas -/

theorem quoteStep_not_quote {c : Char} (st : BraceSt) (h1 : c ≠ dquote) (h2 : c ≠ squote) :
    quoteStep st c = (st.inString, st.stringChar) := by
  unfold quoteStep
  rw [if_neg]
  rintro ⟨h, _⟩
  rcases h with h | h
  exacts [h1 h, h2 h]

theorem fmbGo_cons (c : Char) (rest : List Char) (i : Nat) (st : BraceSt) :
    fmbGo (c :: rest) i st =
      if (quoteStep st c).1 = false then
        if c = lbrace then
          fmbGo rest (i + 1) ⟨st.braceCount + 1, (quoteStep st c).1, (quoteStep st c).2, some c⟩
        else if c = rbrace then
          if st.braceCount - 1 = 0 then some i
          else fmbGo rest (i + 1) ⟨st.braceCount - 1, (quoteStep st c).1, (quoteStep st c).2, some c⟩
        else fmbGo rest (i + 1) ⟨st.braceCount, (quoteStep st c).1, (quoteStep st c).2, some c⟩
      else fmbGo rest (i + 1) ⟨st.braceCount, (quoteStep st c).1, (quoteStep st c).2, some c⟩ := rfl

theorem braceStep_def (st : BraceSt) (c : Char) :
    braceStep st c =
      ⟨if (quoteStep st c).1 = false then
          if c = lbrace then st.braceCount + 1
          else if c = rbrace then st.braceCount - 1
          else st.braceCount
        else st.braceCount,
       (quoteStep st c).1, (quoteStep st c).2, some c⟩ := rfl

theorem fmbGo_cons_ret (c : Char) (rest : List Char) (i : Nat) (st : BraceSt)
    (h : retB st (some c) = true) : fmbGo (c :: rest) i st = some i := by
  have hc : c = rbrace ∧ st.inString = false ∧ st.braceCount = 1 := by
    simpa [retB, Bool.and_eq_true, and_assoc] using h
  obtain ⟨hc, hin, hbc⟩ := hc
  subst hc
  have hqs : quoteStep st rbrace = (st.inString, st.stringChar) :=
    quoteStep_not_quote st (by decide) (by decide)
  rw [fmbGo_cons, hqs]
  simp [hin, hbc, show ¬(rbrace = lbrace) from by decide]

theorem fmbGo_cons_no_ret (c : Char) (rest : List Char) (i : Nat) (st : BraceSt)
    (h : retB st (some c) = false) :
    fmbGo (c :: rest) i st = fmbGo rest (i + 1) (braceStep st c) := by
  rw [fmbGo_cons, braceStep_def]
  by_cases hq : (quoteStep st c).1 = false
  · by_cases hl : c = lbrace
    · subst hl; simp [hq]
    · by_cases hr : c = rbrace
      · subst hr
        have hqs : quoteStep st rbrace = (st.inString, st.stringChar) :=
          quoteStep_not_quote st (by decide) (by decide)
        have hin : st.inString = false := by rw [hqs] at hq; exact hq
        have hbc : ¬st.braceCount = 1 := by
          intro hbc1
          rw [retB] at h
          simp [hin, hbc1] at h
        have hbc' : ¬(st.braceCount - 1 = 0) := fun h0 => hbc (by omega)
        simp [hq, hl, hbc']
      · simp [hq, hl, hr]
  · simp [hq]

theorem fmbGo_eq_find (l : List Char) : ∀ (i : Nat) (st : BraceSt),
    fmbGo l i st =
      Option.map (fun k => i + k)
        ((List.range l.length).find?
          (fun k => retB ((l.take k).foldl braceStep st) l[k]?)) := by
  induction l with
  | nil => intro i st; simp [fmbGo]
  | cons c rest ih =>
    intro i st
    rw [List.length_cons, List.range_succ_eq_map]
    by_cases hret : retB st (some c) = true
    · rw [fmbGo_cons_ret c rest i st hret]
      rw [List.find?_cons_of_pos _ (by simpa using hret)]
      simp
    · rw [fmbGo_cons_no_ret c rest i st (by simpa using hret)]
      rw [List.find?_cons_of_neg _ (by simpa using hret)]
      rw [List.find?_map]
      have hpred : ((fun k => retB (((c :: rest).take k).foldl braceStep st) (c :: rest)[k]?) ∘ Nat.succ)
          = (fun k => retB ((rest.take k).foldl braceStep (braceStep st c)) rest[k]?) := by
        funext k
        simp [Function.comp, Nat.succ_eq_add_one, List.take_succ_cons, List.foldl_cons,
          List.getElem?_cons_succ]
      rw [hpred, ih (i + 1) (braceStep st c), Option.map_map]
      congr 1
      funext k
      simp [Function.comp]
      omega

theorem range_find?_first : ∀ (n : Nat) (p : Nat → Bool) (s : Nat),
    (List.range n).find? p = some s → p s = true ∧ ∀ t, t < s → p t = false := by
  intro n
  induction n with
  | zero => intro p s h; rw [List.range_zero] at h; exact absurd h (by simp)
  | succ m ih =>
    intro p s h
    rw [List.range_succ_eq_map] at h
    by_cases h0 : p 0 = true
    · rw [List.find?_cons_of_pos _ h0] at h
      injection h with h
      subst h
      exact ⟨h0, fun t ht => absurd ht (by omega)⟩
    · rw [List.find?_cons_of_neg _ (by simpa using h0), List.find?_map] at h
      obtain ⟨k, hk, hs⟩ : ∃ k, (List.range m).find? (p ∘ Nat.succ) = some k ∧ s = k + 1 := by
        cases hfk : (List.range m).find? (p ∘ Nat.succ) with
        | none => rw [hfk] at h; simp at h
        | some k =>
          rw [hfk] at h
          simp at h
          exact ⟨k, rfl, by omega⟩
      obtain ⟨hp, hlt⟩ := ih (p ∘ Nat.succ) k hk
      subst hs
      refine ⟨hp, ?_⟩
      intro t ht
      cases t with
      | zero => simpa using h0
      | succ u => exact hlt u (by omega)

/-- C4: for every text and every offset pointing at an opening brace,
`find_matching_brace` returns the offset of the closing brace that brings
the nesting counter back to zero, ignoring braces inside active
single- or double-quoted string literals (quotes toggle only when not
preceded by a backslash), and returns the last valid offset
`len(text) - 1` when no match exists before end-of-text: the
implementation coincides with the declarative description
`braceMatchSpec`. -/
theorem claim_C4_brace_matcher (content : List Char) (startPos : Nat)
    (_h : content[startPos]? = some lbrace) :
    findMatchingBrace content startPos = braceMatchSpec content startPos := by
  unfold findMatchingBrace braceMatchSpec
  have hlen : (content.drop startPos).length = content.length - startPos :=
    List.length_drop _ _
  rw [fmbGo_eq_find, hlen]
  unfold braceStateAt
  cases hfind : (List.range (content.length - startPos)).find?
      (fun k => retB (((content.drop startPos).take k).foldl braceStep
        (initBraceSt content startPos)) (content.drop startPos)[k]?) with
  | none => simp [hfind]
  | some k => simp [hfind]

/-- Witness for C4 at the spec's example `{ a "}" b }`: the matcher
returns offset 10, the final closing brace, not the quoted one at
offset 5. -/
theorem claim_C4_brace_matcher_witness :
    braceExample[0]? = some lbrace ∧ findMatchingBrace braceExample 0 = 10 ∧
    braceExample[10]? = some rbrace ∧ braceExample[5]? = some rbrace := by
  refine ⟨by decide, ?_, by decide, by decide⟩
  have h := claim_C4_brace_matcher braceExample 0 (by decide)
  rw [h]
  decide

/-- C9: for every non-empty text and every start offset below the text
length, `find_matching_brace` terminates (it is a total function of the
model) and returns an offset within `[0, len(text) - 1]`, with no
precondition that the start offset point at an opening brace. -/
theorem claim_C9_brace_matcher_total (content : List Char) (startPos : Nat)
    (h1 : 0 < content.length) (h2 : startPos < content.length) :
    0 ≤ findMatchingBrace content startPos ∧
    findMatchingBrace content startPos ≤ (content.length : Int) - 1 := by
  unfold findMatchingBrace
  cases hfind : fmbGo (content.drop startPos) startPos (initBraceSt content startPos) with
  | none =>
    refine ⟨?_, le_refl _⟩
    show (0 : Int) ≤ (content.length : Int) - 1
    omega
  | some j =>
    rw [fmbGo_eq_find] at hfind
    obtain ⟨k, hk, hj⟩ : ∃ k,
        (List.range (content.drop startPos).length).find?
          (fun k => retB (((content.drop startPos).take k).foldl braceStep
            (initBraceSt content startPos)) (content.drop startPos)[k]?) = some k ∧
        j = startPos + k := by
      cases hfk : (List.range (content.drop startPos).length).find?
          (fun k => retB (((content.drop startPos).take k).foldl braceStep
            (initBraceSt content startPos)) (content.drop startPos)[k]?) with
      | none => rw [hfk] at hfind; simp at hfind
      | some k =>
        rw [hfk] at hfind
        simp at hfind
        exact ⟨k, rfl, by omega⟩
    have hklt : k < (content.drop startPos).length :=
      List.mem_range.mp (List.mem_of_find?_eq_some hk)
    rw [List.length_drop] at hklt
    subst hj
    refine ⟨?_, ?_⟩
    · show (0 : Int) ≤ ((startPos + k : Nat) : Int)
      omega
    · show ((startPos + k : Nat) : Int) ≤ (content.length : Int) - 1
      omega

/-- Witness for C9 on the two-character text `ab` whose start offset 0
does not point at an opening brace. -/
theorem claim_C9_brace_matcher_total_witness :
    0 ≤ findMatchingBrace ("ab".toList) 0 ∧
    findMatchingBrace ("ab".toList) 0 ≤ (("ab".toList).length : Int) - 1 :=
  claim_C9_brace_matcher_total ("ab".toList) 0 (by decide) (by decide)

/-! ## Dispatch error handling and purity -/

/-- C6: `parse_file` never raises in its handled failure modes: a read
failure (decode error, permission error, missing file) yields the empty
list, content that is blank after whitespace trimming yields the empty
list without reaching any extractor, and an extension outside the
supported set yields the empty list. -/
theorem claim_C6_parse_file_error_handling (or : Oracles) (f : SrcFile) :
    (∀ e, f.read = Except.error e → parseFile or f = []) ∧
    (∀ content, f.read = Except.ok content → isBlank content = true →
      parseFile or f = []) ∧
    (∀ content, f.read = Except.ok content →
      strLower (pathSuffix f.path) ∉ SUPPORTED_EXTENSIONS → parseFile or f = []) := by
  refine ⟨?_, ?_, ?_⟩
  · intro e he
    unfold parseFile
    rw [he]
  · intro content hc hb
    unfold parseFile
    rw [hc]
    simp [hb]
  · intro content hc hns
    unfold parseFile
    rw [hc]
    have h1 : ¬strLower (pathSuffix f.path) = ".py" := by
      intro h; exact hns (by rw [h]; decide)
    have h2 : ¬strLower (pathSuffix f.path) = ".java" := by
      intro h; exact hns (by rw [h]; decide)
    have h3 : ¬strLower (pathSuffix f.path) = ".vue" := by
      intro h; exact hns (by rw [h]; decide)
    have h4 : ¬strLower (pathSuffix f.path) = ".js" := by
      intro h; exact hns (by rw [h]; decide)
    by_cases hblank : isBlank content = true
    · simp [hblank]
    · simp [hblank, h1, h2, h3, h4]

/-- Witness for C6: a missing file, a whitespace-only file and an
unsupported `.txt` file each produce zero chunks. -/
theorem claim_C6_parse_file_error_handling_witness :
    parseFile oracleNone fileMissing = [] ∧
    parseFile oracleNone fileBlankPy = [] ∧
    parseFile oracleNone fileTxt = [] :=
  ⟨(claim_C6_parse_file_error_handling oracleNone fileMissing).1
      (ReadErr.fileNotFoundError "no such file") rfl,
   (claim_C6_parse_file_error_handling oracleNone fileBlankPy).2.1
      (" \n".toList) rfl (by decide),
   (claim_C6_parse_file_error_handling oracleNone fileTxt).2.2
      ("hello".toList) rfl (by decide)⟩

/-- C8: parsing is a pure function of the file path and file content
(the external engines being fixed deterministic functions): two files
with equal path and equal read outcome produce identical chunk lists,
and in particular identical derived ids. -/
theorem claim_C8_parse_file_pure (or : Oracles) (f g : SrcFile)
    (hp : f.path = g.path) (hr : f.read = g.read) :
    parseFile or f = parseFile or g ∧
    (parseFile or f).map chunkId = (parseFile or g).map chunkId := by
  obtain ⟨fp, fr⟩ := f
  obtain ⟨gp, gr⟩ := g
  cases hp
  cases hr
  exact ⟨rfl, rfl⟩

/-- Witness for C8: two invocations on distinct records of the same Java
file agree. -/
theorem claim_C8_parse_file_pure_witness :
    parseFile oracleJava fileJava = parseFile oracleJava ⟨"/x/A.java", Except.ok javaSrc⟩ ∧
    (parseFile oracleJava fileJava).map chunkId =
      (parseFile oracleJava ⟨"/x/A.java", Except.ok javaSrc⟩).map chunkId :=
  claim_C8_parse_file_pure oracleJava fileJava ⟨"/x/A.java", Except.ok javaSrc⟩ rfl rfl

/-! ## Chunk content versus the literal source slice (C1) -/

/-- C1: the claim states that every chunk's `content` is a contiguous,
non-reformatted slice of the original file text.  The Python extractor
violates this: its chunk content is
`"\n".join(content.splitlines()[start_line - 1 : end_line])`, and
`splitlines` breaks at characters other than the newline while the join
always re-joins with newlines.  On a source that begins with a form
feed, the emitted function chunk has content `"\ndef f():"`, which
occurs nowhere in the source as a contiguous run of characters. -/
theorem claim_C1_content_not_slice :
    (parsePython "/x/t.py" "t" "unknown" pyFfSrc (Except.ok pyFfAst)).map
      (fun c => (c.chunk_type, c.name, c.start_line, c.end_line, c.content)) =
      [("function", "f", 1, 2, nlc :: "def f():".toList)] ∧
    ¬isSliceOf (nlc :: "def f():".toList) pyFfSrc := by
  refine ⟨by decide, fun h => ?_⟩
  exact absurd ((isSliceOfB_iff _ _).mpr h) (by decide)

/-! ## Fallback law (C2) -/

theorem parsePython_fallback (path stem project : String) (content : List Char)
    (parseRes : Except String (List PyNode))
    (h : (∃ e, parseRes = Except.error e) ∨
      (∀ body, parseRes = Except.ok body →
        (walkBFS body).filterMap
          (pyChunkOf path project (pySplitlines content) (walkBFS body)) = [])) :
    ∃ c, parsePython path stem project content parseRes = [c] ∧
      c.chunk_type = "file" ∧ c.start_line = 1 ∧ c.end_line = numLines content := by
  cases parseRes with
  | error e =>
    refine ⟨⟨content, path, "python", project, "file", stem, 1,
      (pySplitlines content).length, [("parse_error", MetaVal.s e)]⟩, ?_, rfl, rfl, rfl⟩
    simp [parsePython]
  | ok body =>
    rcases h with ⟨e, he⟩ | h
    · exact absurd he (by simp)
    · have hempty := h body rfl
      refine ⟨⟨content, path, "python", project, "file", stem, 1,
        (pySplitlines content).length, []⟩, ?_, rfl, rfl, rfl⟩
      simp only [parsePython]
      rw [if_pos hempty]

theorem parseJava_fallback (path stem project : String) (content : List Char) :
    ∃ c, parseJava path stem project content [] = [c] ∧
      c.chunk_type = "file" ∧ c.start_line = 1 ∧ c.end_line = numLines content := by
  refine ⟨⟨content, path, "java", project, "file", stem, 1,
    (pySplitlines content).length, []⟩, ?_, rfl, rfl, rfl⟩
  simp [parseJava]

theorem parseJavascript_fallback (path stem project : String) (content : List Char) :
    ∃ c, parseJavascript path stem project content [] [] [] = [c] ∧
      c.chunk_type = "file" ∧ c.start_line = 1 ∧ c.end_line = numLines content := by
  refine ⟨⟨content, path, "javascript", project, "file", stem, 1,
    (pySplitlines content).length, []⟩, ?_, rfl, rfl, rfl⟩
  simp [parseJavascript]

theorem parseVue_fallback (path stem project : String) (content : List Char)
    (h1 : tagSearch content ("script".toList) = none)
    (h2 : tagSearch content ("template".toList) = none) :
    ∃ c, parseVue path stem project content = [c] ∧
      c.chunk_type = "component" ∧ c.start_line = 1 ∧ c.end_line = numLines content := by
  refine ⟨⟨content, path, "vue", project, "component", stem, 1,
    (pySplitlines content).length, []⟩, ?_, rfl, rfl, rfl⟩
  simp only [parseVue, h1, h2]
  simp

/-- C2: for every file that is non-empty after whitespace trimming and
has a supported extension, if the language-specific structural search
yields zero regions (or, for Python, parsing fails), `parse_file`
returns exactly one chunk whose `chunk_type` is the language's fallback
type and whose span runs from line 1 to the last line; an unreadable or
blank file yields zero chunks. -/
theorem claim_C2_fallback_law (or : Oracles) (f : SrcFile) :
    (∀ content, f.read = Except.ok content → isBlank content = false →
      strLower (pathSuffix f.path) ∈ SUPPORTED_EXTENSIONS →
      structSearchEmpty or f content →
      ∃ c, parseFile or f = [c] ∧
        c.chunk_type = fallbackChunkType (strLower (pathSuffix f.path)) ∧
        c.start_line = 1 ∧ c.end_line = numLines content) ∧
    ((∃ e, f.read = Except.error e) ∨
      (∃ content, f.read = Except.ok content ∧ isBlank content = true) →
      parseFile or f = []) := by
  constructor
  · intro content hr hblank hsup hse
    obtain ⟨fp, fr⟩ := f
    simp only at hr
    subst hr
    unfold structSearchEmpty at hse
    simp only at hse
    obtain ⟨hpy, hjava, hjs, hvue⟩ := hse
    simp only [parseFile]
    rw [if_neg (by simp [hblank])]
    simp only [SUPPORTED_EXTENSIONS, List.mem_cons, List.not_mem_nil, or_false] at hsup
    rcases hsup with h | h | h | h
    · rw [h, if_neg (by decide), if_pos rfl, hjava h]
      obtain ⟨c, hc, ht, hs, he⟩ := parseJava_fallback fp (pathStem fp)
        (getProjectName fp) content
      exact ⟨c, hc, by rw [ht]; decide, hs, he⟩
    · rw [h, if_pos rfl]
      have hpyres : (∃ e, or.pyParse content = Except.error e) ∨
          (∀ body, or.pyParse content = Except.ok body →
            (walkBFS body).filterMap
              (pyChunkOf fp (getProjectName fp) (pySplitlines content) (walkBFS body)) = []) := by
        rcases hpy h with h1 | h1
        · exact Or.inl h1
        · refine Or.inr (fun body hb => ?_)
          have h2 := h1 body hb
          unfold pyStructChunks at h2
          exact h2
      obtain ⟨c, hc, ht, hs, he⟩ := parsePython_fallback fp (pathStem fp)
        (getProjectName fp) content (or.pyParse content) hpyres
      exact ⟨c, hc, by rw [ht]; decide, hs, he⟩
    · rw [h, if_neg (by decide), if_neg (by decide), if_pos rfl]
      obtain ⟨h1, h2⟩ := hvue h
      obtain ⟨c, hc, ht, hs, he⟩ := parseVue_fallback fp (pathStem fp)
        (getProjectName fp) content h1 h2
      exact ⟨c, hc, by rw [ht]; decide, hs, he⟩
    · rw [h, if_neg (by decide), if_neg (by decide), if_neg (by decide), if_pos rfl]
      obtain ⟨hj1, hj2, hj3⟩ := hjs h
      rw [hj1, hj2, hj3]
      obtain ⟨c, hc, ht, hs, he⟩ := parseJavascript_fallback fp (pathStem fp)
        (getProjectName fp) content
      exact ⟨c, hc, by rw [ht]; decide, hs, he⟩
  · rintro (⟨e, he⟩ | ⟨content, hr, hb⟩)
    · obtain ⟨fp, fr⟩ := f
      simp only at he
      subst he
      simp [parseFile]
    · obtain ⟨fp, fr⟩ := f
      simp only at hr
      subst hr
      simp [parseFile, hb]

/-- Witness for C2: a Vue file with no sections yields exactly one
whole-file `component` chunk spanning its single line, and a missing
file yields zero chunks. -/
theorem claim_C2_fallback_law_witness :
    (∃ c, parseFile oracleNone fileVuePlain = [c] ∧
      c.chunk_type = fallbackChunkType (strLower (pathSuffix fileVuePlain.path)) ∧
      c.start_line = 1 ∧ c.end_line = numLines ("hello there".toList)) ∧
    parseFile oracleNone fileMissing = [] :=
  ⟨(claim_C2_fallback_law oracleNone fileVuePlain).1 ("hello there".toList) rfl
      (by decide) (by decide)
      ⟨fun h => absurd h (by decide), fun h => absurd h (by decide),
       fun h => absurd h (by decide), fun _ => ⟨by decide, by decide⟩⟩,
   (claim_C2_fallback_law oracleNone fileMissing).2
      (Or.inl ⟨ReadErr.fileNotFoundError "no such file", rfl⟩)⟩

/-! ## Line-number bounds (C5) -/

theorem isBlank_nil : isBlank [] = true := rfl

theorem ne_nil_of_not_blank {content : List Char} (h : isBlank content = false) :
    content ≠ [] := by
  intro hc
  subst hc
  simp [isBlank] at h

theorem findMatchingBrace_toNat_bounds (content : List Char) (startPos : Nat)
    (h2 : startPos < content.length) :
    startPos ≤ (findMatchingBrace content startPos).toNat ∧
    (findMatchingBrace content startPos).toNat ≤ content.length - 1 := by
  unfold findMatchingBrace
  cases hfind : fmbGo (content.drop startPos) startPos (initBraceSt content startPos) with
  | none =>
    constructor
    · show startPos ≤ ((content.length : Int) - 1).toNat
      omega
    · show ((content.length : Int) - 1).toNat ≤ content.length - 1
      omega
  | some j =>
    rw [fmbGo_eq_find] at hfind
    obtain ⟨k, hk, hj⟩ : ∃ k,
        (List.range (content.drop startPos).length).find?
          (fun k => retB (((content.drop startPos).take k).foldl braceStep
            (initBraceSt content startPos)) (content.drop startPos)[k]?) = some k ∧
        j = startPos + k := by
      cases hfk : (List.range (content.drop startPos).length).find?
          (fun k => retB (((content.drop startPos).take k).foldl braceStep
            (initBraceSt content startPos)) (content.drop startPos)[k]?) with
      | none => rw [hfk] at hfind; simp at hfind
      | some k =>
        rw [hfk] at hfind
        simp at hfind
        exact ⟨k, rfl, by omega⟩
    have hklt : k < (content.drop startPos).length :=
      List.mem_range.mp (List.mem_of_find?_eq_some hk)
    rw [List.length_drop] at hklt
    subst hj
    constructor
    · show startPos ≤ (((startPos + k : Nat) : Int)).toNat
      omega
    · show (((startPos + k : Nat) : Int)).toNat ≤ content.length - 1
      omega

theorem findCharFrom_some (content : List Char) (ch : Char) (start j : Nat)
    (h : findCharFrom content ch start = some j) :
    start ≤ j ∧ j < content.length ∧ content[j]? = some ch := by
  unfold findCharFrom at h
  have hmem := List.mem_range.mp (List.mem_of_find?_eq_some h)
  have hp := List.find?_some h
  simp at hp
  exact ⟨hp.1, hmem, hp.2⟩

theorem findSub_some (content pat : List Char) (start j : Nat)
    (h : findSub content pat start = some j) :
    start ≤ j ∧ j + pat.length ≤ content.length ∧
    (content.drop j).take pat.length = pat := by
  unfold findSub at h
  have hmem := List.mem_range.mp (List.mem_of_find?_eq_some h)
  have hp := List.find?_some h
  simp only [Bool.and_eq_true, decide_eq_true_eq] at hp
  obtain ⟨t, ht⟩ := isPrefixOf_ex hp.2
  have hlen : pat.length ≤ (content.drop j).length := by
    rw [← ht]
    simp
  rw [List.length_drop] at hlen
  refine ⟨hp.1, by omega, ?_⟩
  rw [← ht, List.take_append_of_le_length (le_refl pat.length), List.take_length]

theorem tagMatchAt_some (content tag : List Char) (s e : Nat)
    (h : tagMatchAt content tag s = some e) :
    s < e ∧ e ≤ content.length ∧
    (e = content.length → content.getLast? = some gtc) := by
  simp only [tagMatchAt] at h
  split at h
  · rename_i hpre
    split at h
    · exact absurd h (by simp)
    · rename_i g hg
      split at h
      · exact absurd h (by simp)
      · rename_i cpos hc
        injection h with h
        obtain ⟨hg1, hg2, hg3⟩ := findCharFrom_some content gtc _ g hg
        obtain ⟨hc1, hc2, hc3⟩ := findSub_some content _ _ cpos hc
        subst h
        have hlen : (ltc :: slashc :: (tag ++ [gtc])).length = tag.length + 3 := by
          simp
        refine ⟨?_, by omega, ?_⟩
        · simp only [List.length_cons] at hg1
          omega
        · intro hetot
          have hdrop : content.drop cpos = ltc :: slashc :: (tag ++ [gtc]) := by
            have hdl : (content.drop cpos).length =
                (ltc :: slashc :: (tag ++ [gtc])).length := by
              rw [List.length_drop]
              omega
            rw [← hc3, ← hdl, List.take_length]
          have hsplit : content = content.take cpos ++ (ltc :: slashc :: (tag ++ [gtc])) := by
            rw [← hdrop, List.take_append_drop]
          rw [hsplit]
          have hassoc : ltc :: slashc :: (tag ++ [gtc]) = (ltc :: slashc :: tag) ++ [gtc] := by
            simp
          rw [hassoc, ← List.append_assoc, List.getLast?_concat]
  · exact absurd h (by simp)

theorem vueSectionChunk_bounds (path stem project sect : String)
    (content : List Char) (se : Nat × Nat) (hne : content ≠ [])
    (hs : se.1 < se.2) (he : se.2 ≤ content.length)
    (hlast : se.2 = content.length → content.getLast? = some gtc) :
    1 ≤ (vueSectionChunk path stem project sect content se).start_line ∧
    (vueSectionChunk path stem project sect content se).start_line ≤
      (vueSectionChunk path stem project sect content se).end_line ∧
    (vueSectionChunk path stem project sect content se).end_line ≤ numLines content := by
  refine ⟨by simp [vueSectionChunk, lineOf], ?_, ?_⟩
  · exact lineOf_mono content se.1 se.2 (by omega)
  · show lineOf content se.2 ≤ numLines content
    by_cases hcase : se.2 = content.length
    · have hg := hlast hcase
      rw [hcase]
      exact lineOf_length_le_numLines content gtc hg (by decide)
    · exact lineOf_le_numLines content se.2 hne (by omega)

theorem tagSearch_some (content tag : List Char) (se : Nat × Nat)
    (h : tagSearch content tag = some se) :
    tagMatchAt content tag se.1 = some se.2 := by
  unfold tagSearch at h
  split at h
  · rename_i s hfind
    cases hm : tagMatchAt content tag s with
    | none => rw [hm] at h; exact absurd h (by simp)
    | some e =>
      rw [hm] at h
      simp only [Option.map_some'] at h
      injection h with h
      subst h
      exact hm
  · exact absurd h (by simp)

theorem parseVue_bounds (path stem project : String) (content : List Char)
    (hne : content ≠ []) :
    ∀ c ∈ parseVue path stem project content,
      1 ≤ c.start_line ∧ c.start_line ≤ c.end_line ∧ c.end_line ≤ numLines content := by
  intro c hc
  have hsec : ∀ (tag : List Char) (se : Nat × Nat) (sect : String),
      tagSearch content tag = some se →
      c = vueSectionChunk path stem project sect content se →
      1 ≤ c.start_line ∧ c.start_line ≤ c.end_line ∧ c.end_line ≤ numLines content := by
    intro tag se sect hts hcv
    obtain ⟨h1, h2, h3⟩ := tagMatchAt_some content tag se.1 se.2 (tagSearch_some content tag se hts)
    subst hcv
    exact vueSectionChunk_bounds path stem project sect content se hne h1 h2 h3
  cases h1 : tagSearch content ("script".toList) with
  | none =>
    cases h2 : tagSearch content ("template".toList) with
    | none =>
      simp only [parseVue, h1, h2] at hc
      simp at hc
      subst hc
      exact ⟨le_refl 1, numLines_pos content hne, le_refl _⟩
    | some se =>
      simp only [parseVue, h1, h2] at hc
      simp at hc
      exact hsec _ se "template" h2 hc
  | some se =>
    cases h2 : tagSearch content ("template".toList) with
    | none =>
      simp only [parseVue, h1, h2] at hc
      simp at hc
      exact hsec _ se "script" h1 hc
    | some se2 =>
      simp only [parseVue, h1, h2] at hc
      simp at hc
      rcases hc with hc | hc
      · exact hsec _ se "script" h1 hc
      · exact hsec _ se2 "template" h2 hc

theorem parseJava_bounds (path stem project : String) (content : List Char)
    (ms : List JMatch) (hne : content ≠ [])
    (hv : ∀ m ∈ ms, ValidJMatch content m) :
    ∀ c ∈ parseJava path stem project content ms,
      1 ≤ c.start_line ∧ c.start_line ≤ c.end_line ∧ c.end_line ≤ numLines content := by
  intro c hc
  simp only [parseJava] at hc
  split at hc
  · simp at hc
    subst hc
    exact ⟨le_refl 1, numLines_pos content hne, le_refl _⟩
  · rw [List.mem_filterMap] at hc
    obtain ⟨m, hm, hf⟩ := hc
    obtain ⟨hv1, hv2⟩ := hv m hm
    split at hf
    · exact absurd hf (by simp)
    · rename_i bracePos hbp
      obtain ⟨hb1, hb2, _⟩ := findCharFrom_some content lbrace m.mend bracePos hbp
      obtain ⟨he1, he2⟩ := findMatchingBrace_toNat_bounds content bracePos hb2
      injection hf with hf
      subst hf
      refine ⟨?_, ?_, ?_⟩
      · show 1 ≤ lineOf content m.mstart
        unfold lineOf
        omega
      · exact lineOf_mono content _ _ (by omega)
      · exact lineOf_le_numLines content _ hne (by omega)

theorem jsChunkOf_bounds (path ctype : String) (content : List Char) (m : NMatch)
    (c : CodeChunk) (hne : content ≠ []) (hv : ValidNMatch content m)
    (h : jsChunkOf path ctype content m = some c) :
    1 ≤ c.start_line ∧ c.start_line ≤ c.end_line ∧ c.end_line ≤ numLines content := by
  obtain ⟨hv1, hv2⟩ := hv
  unfold jsChunkOf at h
  split at h
  · exact absurd h (by simp)
  · rename_i bracePos hbp
    obtain ⟨hb1, hb2, _⟩ := findCharFrom_some content lbrace (m.mend - 1) bracePos hbp
    obtain ⟨he1, he2⟩ := findMatchingBrace_toNat_bounds content bracePos hb2
    injection h with h
    subst h
    refine ⟨?_, ?_, ?_⟩
    · show 1 ≤ lineOf content m.mstart
      unfold lineOf
      omega
    · exact lineOf_mono content _ _ (by omega)
    · exact lineOf_le_numLines content _ hne (by omega)

theorem parseJavascript_bounds (path stem project : String) (content : List Char)
    (cs fs as : List NMatch) (hne : content ≠ [])
    (hvc : ∀ m ∈ cs, ValidNMatch content m)
    (hvf : ∀ m ∈ fs, ValidNMatch content m)
    (hva : ∀ m ∈ as, ValidNMatch content m) :
    ∀ c ∈ parseJavascript path stem project content cs fs as,
      1 ≤ c.start_line ∧ c.start_line ≤ c.end_line ∧ c.end_line ≤ numLines content := by
  intro c hc
  simp only [parseJavascript] at hc
  split at hc
  · simp at hc
    subst hc
    exact ⟨le_refl 1, numLines_pos content hne, le_refl _⟩
  · rcases List.mem_append.mp hc with hc1 | hc1
    · rcases List.mem_append.mp hc1 with hc2 | hc2
      · obtain ⟨m, hm, hf⟩ := List.mem_filterMap.mp hc2
        exact jsChunkOf_bounds _ _ content m c hne (hvc m hm) hf
      · obtain ⟨m, hm, hf⟩ := List.mem_filterMap.mp hc2
        exact jsChunkOf_bounds _ _ content m c hne (hvf m hm) hf
    · obtain ⟨m, hm, hf⟩ := List.mem_filterMap.mp hc1
      exact jsChunkOf_bounds _ _ content m c hne (hva m hm) hf

theorem parsePython_bounds (path stem project : String) (content : List Char)
    (parseRes : Except String (List PyNode)) (hne : content ≠ [])
    (hwf : ∀ body, parseRes = Except.ok body → ∀ n ∈ walkBFS body, nodeLinesOk content n) :
    ∀ c ∈ parsePython path stem project content parseRes,
      1 ≤ c.start_line ∧ c.start_line ≤ c.end_line ∧ c.end_line ≤ numLines content := by
  intro c hc
  cases parseRes with
  | error e =>
    simp only [parsePython] at hc
    simp at hc
    subst hc
    exact ⟨le_refl 1, numLines_pos content hne, le_refl _⟩
  | ok body =>
    simp only [parsePython] at hc
    split at hc
    · simp at hc
      subst hc
      exact ⟨le_refl 1, numLines_pos content hne, le_refl _⟩
    · obtain ⟨n, hn, hf⟩ := List.mem_filterMap.mp hc
      have hwfn := hwf body rfl n hn
      unfold pyChunkOf at hf
      split at hf
      · injection hf with hf
        subst hf
        simp only [nodeLinesOk] at hwfn
        exact hwfn
      · split at hf
        · exact absurd hf (by simp)
        · injection hf with hf
          subst hf
          simp only [nodeLinesOk] at hwfn
          exact hwfn
      · exact absurd hf (by simp)

/-- C5: every chunk `parse_file` returns has `1 ≤ start_line ≤ end_line ≤
total_lines` of the source file, across all four language extractors and
all fallback chunks, given the guarantees the external engines provide
about their matches and parsed trees. -/
theorem claim_C5_line_bounds (or : Oracles) (f : SrcFile) (content : List Char)
    (hr : f.read = Except.ok content) (hv : ValidOracles or content) :
    ∀ c ∈ parseFile or f,
      1 ≤ c.start_line ∧ c.start_line ≤ c.end_line ∧ c.end_line ≤ numLines content := by
  obtain ⟨hvJ, hvC, hvF, hvA, hvP⟩ := hv
  intro c hc
  obtain ⟨fp, fr⟩ := f
  simp only at hr
  subst hr
  simp only [parseFile] at hc
  split at hc
  · exact absurd hc (by simp)
  · rename_i hblank
    have hne : content ≠ [] := by
      intro h0
      subst h0
      exact hblank isBlank_nil
    split at hc
    · exact parsePython_bounds _ _ _ content _ hne (fun body hb => hvP body hb) c hc
    · split at hc
      · exact parseJava_bounds _ _ _ content _ hne hvJ c hc
      · split at hc
        · exact parseVue_bounds _ _ _ content hne c hc
        · split at hc
          · exact parseJavascript_bounds _ _ _ content _ _ _ hne hvC hvF hvA c hc
          · exact absurd hc (by simp)

/-- Witness for C5 at the Java fixture: the emitted class chunk's lines
are within bounds. -/
theorem claim_C5_line_bounds_witness :
    1 ≤ (CodeChunk.mk javaSrc "/x/A.java" "java" "unknown" "class" "A" 1 1
        [("modifiers", MetaVal.s "")]).start_line ∧
    (CodeChunk.mk javaSrc "/x/A.java" "java" "unknown" "class" "A" 1 1
        [("modifiers", MetaVal.s "")]).start_line ≤
      (CodeChunk.mk javaSrc "/x/A.java" "java" "unknown" "class" "A" 1 1
        [("modifiers", MetaVal.s "")]).end_line ∧
    (CodeChunk.mk javaSrc "/x/A.java" "java" "unknown" "class" "A" 1 1
        [("modifiers", MetaVal.s "")]).end_line ≤ numLines javaSrc := by
  have hv : ValidOracles oracleJava javaSrc := by
    refine ⟨?_, ?_, ?_, ?_, ?_⟩
    · intro m hm
      simp [oracleJava] at hm
      subst hm
      exact ⟨by decide, by decide⟩
    · intro m hm
      simp [oracleJava] at hm
    · intro m hm
      simp [oracleJava] at hm
    · intro m hm
      simp [oracleJava] at hm
    · intro body hb
      simp [oracleJava] at hb
  exact claim_C5_line_bounds oracleJava fileJava javaSrc rfl hv _ (by decide)

/-! ## The syntax-tree walk and the Python chunk census (C3) -/

theorem pySizeL_append (a b : List PyNode) :
    pySizeL (a ++ b) = pySizeL a + pySizeL b := by
  induction a with
  | nil => simp [pySizeL]
  | cons x xs ih =>
    simp only [List.cons_append, pySizeL, List.append_eq, ih]
    omega

theorem pySizeL_children_lt (l : List PyNode) (h : l ≠ []) :
    pySizeL (l.flatMap PyNode.children) < pySizeL l := by
  have key : ∀ m : List PyNode,
      pySizeL (m.flatMap PyNode.children) + m.length ≤ pySizeL m := by
    intro m
    induction m with
    | nil => simp [pySizeL]
    | cons x xs ih =>
      have hm : pySizeL (PyNode.children x) + 1 = pySize x := by
        cases x <;> (simp [PyNode.children, pySize]; omega)
      simp only [List.flatMap_cons, pySizeL_append, pySizeL, List.length_cons]
      omega
  have h1 := key l
  have h2 : 0 < l.length := List.length_pos.mpr h
  omega

theorem walkGo_fuel : ∀ (f1 f2 : Nat) (q : List PyNode),
    pySizeL q < f1 → pySizeL q < f2 → walkGo f1 q = walkGo f2 q := by
  intro f1
  induction f1 with
  | zero => intro f2 q h1 h2; omega
  | succ f ih =>
    intro f2 q h1 h2
    cases f2 with
    | zero => omega
    | succ f2p =>
      cases q with
      | nil => rfl
      | cons n rest =>
        simp only [walkGo]
        congr 1
        have hlt := pySizeL_children_lt (n :: rest) (by simp)
        exact ih f2p ((n :: rest).flatMap PyNode.children) (by omega) (by omega)

theorem walkBFS_cons (n : PyNode) (rest : List PyNode) :
    walkBFS (n :: rest) =
      (n :: rest) ++ walkBFS ((n :: rest).flatMap PyNode.children) := by
  unfold walkBFS
  simp only [walkGo]
  congr 1
  have hlt := pySizeL_children_lt (n :: rest) (by simp)
  exact walkGo_fuel _ _ _ (by omega) (by omega)

theorem mem_walkBFS_self (q : List PyNode) (n : PyNode) (h : n ∈ q) :
    n ∈ walkBFS q := by
  cases q with
  | nil => simp at h
  | cons m rest =>
    rw [walkBFS_cons]
    exact List.mem_append.mpr (Or.inl h)

theorem walkBFS_closed_aux : ∀ (sz : Nat) (q : List PyNode), pySizeL q ≤ sz →
    ∀ p ∈ walkBFS q, ∀ c ∈ p.children, c ∈ walkBFS q := by
  intro sz
  induction sz with
  | zero =>
    intro q hq p hp c hc
    cases q with
    | nil => simp [walkBFS, walkGo] at hp
    | cons n rest =>
      exfalso
      have : 1 ≤ pySize n := by cases n <;> simp [pySize]
      simp [pySizeL] at hq
      omega
  | succ sz ih =>
    intro q hq p hp c hc
    cases q with
    | nil => simp [walkBFS, walkGo] at hp
    | cons n rest =>
      rw [walkBFS_cons] at hp ⊢
      rcases List.mem_append.mp hp with hp1 | hp1
      · refine List.mem_append.mpr (Or.inr ?_)
        refine mem_walkBFS_self _ c ?_
        exact List.mem_flatMap.mpr ⟨p, hp1, hc⟩
      · refine List.mem_append.mpr (Or.inr ?_)
        have hlt := pySizeL_children_lt (n :: rest) (by simp)
        exact ih ((n :: rest).flatMap PyNode.children) (by omega) p hp1 c hc

theorem walkBFS_closed (q : List PyNode) (p : PyNode) (hp : p ∈ walkBFS q)
    (c : PyNode) (hc : c ∈ p.children) : c ∈ walkBFS q :=
  walkBFS_closed_aux (pySizeL q) q (le_refl _) p hp c hc

/-- Counterexample for C3: the claim says no class chunk is emitted for
a class that is not top-level, but `ast.walk` visits every node, so on
`pyNestSrc` the nested class `Inner` — a direct child of class `Outer`'s
body, hence not top-level — receives its own `class` chunk alongside
`Outer`. -/
theorem claim_C3_counterexample :
    (parsePython "/x/n.py" "n" "unknown" pyNestSrc (Except.ok pyNestAst)).map
      (fun c => (c.chunk_type, c.name)) =
      [("class", "Outer"), ("class", "Inner")] ∧
    PyNode.classDef "Inner" 2 3 [] [] [.stmt []] ∈
      (PyNode.classDef "Outer" 1 3 [] [] [.classDef "Inner" 2 3 [] [] [.stmt []]]).children := by
  constructor
  · decide
  · simp [PyNode.children]

/-- C3 as amended: on a successful parse the structural chunks are
exactly one `class` chunk per class definition anywhere in the walked
tree (`ast.walk` also reaches nested classes), and one `function` chunk
per function or async-function definition that is not a direct child of
any class definition; methods (direct children of a class) are never
emitted as standalone chunks, which the converse direction expresses:
every `function` chunk arises from a definition with no class parent. -/
theorem claim_C3_python_chunk_census (path stem project : String) (content : List Char)
    (body : List PyNode) :
    (∀ cname l e decs bases cbody,
      PyNode.classDef cname l e decs bases cbody ∈ walkBFS body →
      ∃ c ∈ pyStructChunks path project content body,
        c.chunk_type = "class" ∧ c.name = cname ∧
        c.start_line = l ∧ c.end_line = e) ∧
    (∀ fname l e isAsync decs args fbody,
      PyNode.funcDef fname l e isAsync decs args fbody ∈ walkBFS body →
      hasClassParent (walkBFS body)
        (PyNode.funcDef fname l e isAsync decs args fbody) = false →
      ∃ c ∈ pyStructChunks path project content body,
        c.chunk_type = "function" ∧ c.name = fname ∧
        c.start_line = l ∧ c.end_line = e) ∧
    (∀ c ∈ pyStructChunks path project content body,
      (c.chunk_type = "class" ∧ ∃ cname l e decs bases cbody,
        PyNode.classDef cname l e decs bases cbody ∈ walkBFS body ∧
        c.name = cname ∧ c.start_line = l ∧ c.end_line = e) ∨
      (c.chunk_type = "function" ∧ ∃ fname l e isAsync decs args fbody,
        PyNode.funcDef fname l e isAsync decs args fbody ∈ walkBFS body ∧
        hasClassParent (walkBFS body)
          (PyNode.funcDef fname l e isAsync decs args fbody) = false ∧
        c.name = fname ∧ c.start_line = l ∧ c.end_line = e)) ∧
    (pyStructChunks path project content body ≠ [] →
      parsePython path stem project content (Except.ok body) =
        pyStructChunks path project content body) := by
  refine ⟨?_, ?_, ?_, ?_⟩
  · intro cname l e decs bases cbody hmem
    refine ⟨_, List.mem_filterMap.mpr ⟨_, hmem, rfl⟩, rfl, rfl, rfl, rfl⟩
  · intro fname l e isAsync decs args fbody hmem hpar
    refine ⟨⟨joinNl (((pySplitlines content).drop (l - 1)).take (e - (l - 1))),
        path, "python", project, "function", fname, l, e,
        [("decorators", MetaVal.ls decs), ("args", MetaVal.ls args),
         ("is_async", MetaVal.b isAsync)]⟩,
      List.mem_filterMap.mpr
        ⟨PyNode.funcDef fname l e isAsync decs args fbody, hmem, ?_⟩,
      rfl, rfl, rfl, rfl⟩
    simp only [pyChunkOf, hpar]
    simp
  · intro c hc
    obtain ⟨n, hn, hf⟩ := List.mem_filterMap.mp hc
    unfold pyChunkOf at hf
    split at hf
    · rename_i cname l e decs bases cbody
      injection hf with hf
      subst hf
      exact Or.inl ⟨rfl, cname, l, e, decs, bases, cbody, hn, rfl, rfl, rfl⟩
    · rename_i fname l e isAsync decs args fbody
      split at hf
      · exact absurd hf (by simp)
      · rename_i hpar
        injection hf with hf
        subst hf
        refine Or.inr ⟨rfl, fname, l, e, isAsync, decs, args, fbody, hn, ?_, rfl, rfl, rfl⟩
        simpa using hpar
    · exact absurd hf (by simp)
  · intro hne
    simp only [parsePython]
    rw [if_neg]
    · rfl
    · exact fun h0 => hne h0

/-- Witness for the amended C3 at the spec's Python scenario: class
`Foo` yields a class chunk, top-level `baz` yields a function chunk, and
every structural chunk of the fixture is a class or top-level
function. -/
theorem claim_C3_python_chunk_census_witness :
    (∃ c ∈ pyStructChunks "/x/t.py" "unknown" pyFooSrc pyFooAst,
      c.chunk_type = "class" ∧ c.name = "Foo" ∧ c.start_line = 1 ∧ c.end_line = 3) ∧
    (∃ c ∈ pyStructChunks "/x/t.py" "unknown" pyFooSrc pyFooAst,
      c.chunk_type = "function" ∧ c.name = "baz" ∧ c.start_line = 5 ∧ c.end_line = 6) := by
  have h := claim_C3_python_chunk_census "/x/t.py" "t" "unknown" pyFooSrc pyFooAst
  constructor
  · exact h.1 "Foo" 1 3 [] []
      [.funcDef "bar" 2 3 false [] ["self"] [.stmt []]]
      (mem_walkBFS_self _ _ (by simp [pyFooAst]))
  · exact h.2.1 "baz" 5 6 false [] [] [.stmt []]
      (mem_walkBFS_self _ _ (by simp [pyFooAst]))
      (by decide)

/-! ## Scanner characterization (C7) -/

theorem fsSize_pos (t : FsTree) : 1 ≤ fsSize t := by
  cases t
  simp [fsSize]

theorem fsSize_le_of_mem {t : FsTree} {subdirs : List FsTree} (h : t ∈ subdirs) :
    fsSize t ≤ fsSizeL subdirs := by
  induction subdirs with
  | nil => simp at h
  | cons x xs ih =>
    rcases List.mem_cons.mp h with rfl | h
    · simp [fsSizeL]
    · have := ih h
      simp [fsSizeL]
      omega

theorem flatMap_congr_mem {α β : Type} (l : List α) (f g : α → List β)
    (h : ∀ a ∈ l, f a = g a) : l.flatMap f = l.flatMap g := by
  induction l with
  | nil => rfl
  | cons x xs ih =>
    simp only [List.flatMap_cons]
    rw [h x (by simp), ih (fun a ha => h a (by simp [ha]))]

theorem scanGo_fuel : ∀ (f1 f2 : Nat) (pre : List String) (t : FsTree),
    fsSize t ≤ f1 → fsSize t ≤ f2 → scanGo f1 pre t = scanGo f2 pre t := by
  intro f1
  induction f1 with
  | zero =>
    intro f2 pre t h1 h2
    have := fsSize_pos t
    omega
  | succ f ih =>
    intro f2 pre t h1 h2
    cases f2 with
    | zero =>
      have := fsSize_pos t
      omega
    | succ f2p =>
      cases t with
      | node nm subdirs files =>
        simp only [scanGo]
        congr 1
        have hfun : ∀ t' ∈ subdirs.filter (fun t => decide (FsTree.dirName t ∉ IGNORE_DIRS)),
            scanGo f (pre ++ [FsTree.dirName t']) t' =
            scanGo f2p (pre ++ [FsTree.dirName t']) t' := by
          intro t' ht'
          have hmem := List.mem_of_mem_filter ht'
          have hsz := fsSize_le_of_mem hmem
          have h1b : fsSize (FsTree.node nm subdirs files) = fsSizeL subdirs + 1 := by
            simp [fsSize]
            omega
          rw [h1b] at h1 h2
          exact ih f2p _ t' (by omega) (by omega)
        exact flatMap_congr_mem _ _ _ hfun

theorem scanWalk_eq (pre : List String) (nm : String) (subdirs : List FsTree)
    (files : List String) :
    scanWalk pre (FsTree.node nm subdirs files) =
      ((files.filter (fun fn => decide (pathSuffix fn ∈ SUPPORTED_EXTENSIONS))).map
        (fun fn => pre ++ [fn])) ++
      (subdirs.filter (fun t => decide (FsTree.dirName t ∉ IGNORE_DIRS))).flatMap
        (fun t => scanWalk (pre ++ [FsTree.dirName t]) t) := by
  unfold scanWalk
  have h1 : fsSize (FsTree.node nm subdirs files) = fsSizeL subdirs + 1 := by
    simp [fsSize]
    omega
  rw [h1]
  simp only [scanGo]
  congr 1
  have hfun : ∀ t' ∈ subdirs.filter (fun t => decide (FsTree.dirName t ∉ IGNORE_DIRS)),
      scanGo (fsSizeL subdirs) (pre ++ [FsTree.dirName t']) t' =
      scanGo (fsSize t') (pre ++ [FsTree.dirName t']) t' := by
    intro t' ht'
    have hsz := fsSize_le_of_mem (List.mem_of_mem_filter ht')
    exact scanGo_fuel _ _ _ t' hsz (le_refl _)
  exact flatMap_congr_mem _ _ _ hfun

theorem scanWalk_mem_aux : ∀ (sz : Nat) (t : FsTree), fsSize t ≤ sz →
    ∀ (pre p : List String),
    (p ∈ scanWalk pre t ↔
      ∃ ds fn, p = pre ++ ds ++ [fn] ∧ HasFile t ds fn ∧
        pathSuffix fn ∈ SUPPORTED_EXTENSIONS ∧ ∀ d ∈ ds, d ∉ IGNORE_DIRS) := by
  intro sz
  induction sz with
  | zero =>
    intro t hsz
    have := fsSize_pos t
    omega
  | succ sz ih =>
    intro t hsz pre p
    cases t with
    | node nm subdirs files =>
      rw [scanWalk_eq]
      constructor
      · intro hp
        rcases List.mem_append.mp hp with hp1 | hp1
        · obtain ⟨fn, hfn, hpe⟩ := List.mem_map.mp hp1
          obtain ⟨hfm, hfs⟩ := List.mem_filter.mp hfn
          refine ⟨[], fn, by simp [← hpe], HasFile.here hfm, by simpa using hfs, by simp⟩
        · obtain ⟨t', ht', hpm⟩ := List.mem_flatMap.mp hp1
          obtain ⟨htm, htk⟩ := List.mem_filter.mp ht'
          have hsz2 : fsSize t' ≤ sz := by
            have ha := fsSize_le_of_mem htm
            have hb : fsSize (FsTree.node nm subdirs files) = fsSizeL subdirs + 1 := by
              simp [fsSize]
              omega
            omega
          obtain ⟨ds, fn, hpeq, hhf, hsuf, hnig⟩ :=
            (ih t' hsz2 (pre ++ [FsTree.dirName t']) p).mp hpm
          refine ⟨FsTree.dirName t' :: ds, fn, ?_, HasFile.there htm hhf, hsuf, ?_⟩
          · rw [hpeq]
            simp
          · intro d hd
            rcases List.mem_cons.mp hd with rfl | hd
            · simpa using htk
            · exact hnig d hd
      · rintro ⟨ds, fn, rfl, hhf, hsuf, hnig⟩
        cases hhf with
        | here hfm =>
          refine List.mem_append.mpr (Or.inl ?_)
          refine List.mem_map.mpr ⟨fn, List.mem_filter.mpr ⟨hfm, by simpa using hsuf⟩, ?_⟩
          simp
        | there htm hhf2 =>
          rename_i t' ds2
          refine List.mem_append.mpr (Or.inr ?_)
          refine List.mem_flatMap.mpr ⟨t', ?_, ?_⟩
          · refine List.mem_filter.mpr ⟨htm, ?_⟩
            have := hnig (FsTree.dirName t') (by simp)
            simpa using this
          · have hsz2 : fsSize t' ≤ sz := by
              have ha := fsSize_le_of_mem htm
              have hb : fsSize (FsTree.node nm subdirs files) = fsSizeL subdirs + 1 := by
                simp [fsSize]
                omega
              omega
            refine (ih t' hsz2 (pre ++ [FsTree.dirName t']) _).mpr
              ⟨ds2, fn, ?_, hhf2, hsuf, ?_⟩
            · simp
            · intro d hd
              exact hnig d (List.mem_cons.mpr (Or.inr hd))

/-- C7: `scan_files` returns exactly the files whose suffix is in the
supported set and whose directory chain below the root avoids the
ignore-set (pruned subtrees such as `node_modules` contribute nothing);
a missing root yields the empty list. -/
theorem claim_C7_scan_files (root : Option FsTree) (p : List String) :
    (p ∈ scanFiles root ↔
      ∃ t, root = some t ∧ ∃ ds fn, p = ds ++ [fn] ∧ HasFile t ds fn ∧
        pathSuffix fn ∈ SUPPORTED_EXTENSIONS ∧ ∀ d ∈ ds, d ∉ IGNORE_DIRS) ∧
    scanFiles none = [] := by
  refine ⟨?_, rfl⟩
  cases root with
  | none => simp [scanFiles]
  | some t =>
    simp only [scanFiles]
    rw [scanWalk_mem_aux (fsSize t) t (le_refl _) [] p]
    constructor
    · rintro ⟨ds, fn, hpe, hhf, hsuf, hnig⟩
      exact ⟨t, rfl, ds, fn, by simpa using hpe, hhf, hsuf, hnig⟩
    · rintro ⟨t2, ht2, ds, fn, hpe, hhf, hsuf, hnig⟩
      injection ht2 with ht2
      subst ht2
      exact ⟨ds, fn, by simpa using hpe, hhf, hsuf, hnig⟩

/-- Witness for C7 at the fixture tree: the supported file under `src`
is returned, the supported file under `node_modules` is not, and a
missing root scans to nothing. -/
theorem claim_C7_scan_files_witness :
    ["src", "a.py"] ∈ scanFiles (some treeEx) ∧
    ["node_modules", "x.js"] ∉ scanFiles (some treeEx) ∧
    scanFiles none = [] := by
  refine ⟨?_, by decide, (claim_C7_scan_files none []).2⟩
  refine (claim_C7_scan_files (some treeEx) ["src", "a.py"]).1.mpr
    ⟨treeEx, rfl, ["src"], "a.py", rfl, ?_, by decide, ?_⟩
  · exact HasFile.there (t := FsTree.node "src" [] ["a.py", "b.txt"])
      (by simp [treeEx]) (HasFile.here (by simp))
  · intro d hd
    rcases List.mem_singleton.mp hd with rfl
    decide

/-! ## Vue section chunks (C10) -/

theorem tagSearch_leftmost (content tag : List Char) (se : Nat × Nat)
    (h : tagSearch content tag = some se) :
    ∀ s2, s2 < se.1 → tagMatchAt content tag s2 = none := by
  unfold tagSearch at h
  split at h
  · rename_i s hfind
    cases hm : tagMatchAt content tag s with
    | none => rw [hm] at h; exact absurd h (by simp)
    | some e =>
      rw [hm] at h
      simp only [Option.map_some'] at h
      injection h with h
      subst h
      intro s2 hs2
      have hfirst := range_find?_first content.length _ s hfind
      have hl := hfirst.2 s2 hs2
      cases hmm : tagMatchAt content tag s2 with
      | none => rfl
      | some e2 =>
        rw [hmm] at hl
        simp at hl
  · exact absurd h (by simp)

/-- C10: `parse_vue` emits at most one script chunk and at most one
template chunk, each taken from the first (leftmost) occurrence of its
tag pattern; and whenever both are present the script chunk precedes the
template chunk in the returned list, regardless of which section appears
first in the source. -/
theorem claim_C10_vue_section_order (path stem project : String) (content : List Char) :
    ((parseVue path stem project content).countP
        (fun c => c.chunk_type == "script") ≤ 1) ∧
    ((parseVue path stem project content).countP
        (fun c => c.chunk_type == "template") ≤ 1) ∧
    (∀ (i j : Nat) (hi : i < (parseVue path stem project content).length)
        (hj : j < (parseVue path stem project content).length),
      ((parseVue path stem project content).get ⟨i, hi⟩).chunk_type = "script" →
      ((parseVue path stem project content).get ⟨j, hj⟩).chunk_type = "template" →
      i < j) ∧
    (∀ c ∈ parseVue path stem project content, c.chunk_type = "script" →
      ∃ se, tagSearch content ("script".toList) = some se ∧
        c = vueSectionChunk path stem project "script" content se ∧
        ∀ s2 < se.1, tagMatchAt content ("script".toList) s2 = none) ∧
    (∀ c ∈ parseVue path stem project content, c.chunk_type = "template" →
      ∃ se, tagSearch content ("template".toList) = some se ∧
        c = vueSectionChunk path stem project "template" content se ∧
        ∀ s2 < se.1, tagMatchAt content ("template".toList) s2 = none) := by
  cases h1 : tagSearch content ("script".toList) with
  | some se1 =>
    cases h2 : tagSearch content ("template".toList) with
    | some se2 =>
      have hout : parseVue path stem project content =
          [vueSectionChunk path stem project "script" content se1,
           vueSectionChunk path stem project "template" content se2] := by
        simp only [parseVue, h1, h2]
        simp
      rw [hout]
      refine ⟨by simp [vueSectionChunk, List.countP_cons], ?_, ?_, ?_, ?_⟩
      · simp [vueSectionChunk, List.countP_cons]
      · intro i j hi hj hsi htj
        simp only [List.length_cons, List.length_nil] at hi hj
        interval_cases i <;> interval_cases j <;>
          simp_all [vueSectionChunk]
      · intro c hc hcs
        rcases List.mem_cons.mp hc with rfl | hc
        · exact ⟨se1, rfl, rfl, tagSearch_leftmost content _ se1 h1⟩
        · rcases List.mem_singleton.mp hc with rfl
          simp [vueSectionChunk] at hcs
      · intro c hc hct
        rcases List.mem_cons.mp hc with rfl | hc
        · simp [vueSectionChunk] at hct
        · rcases List.mem_singleton.mp hc with rfl
          exact ⟨se2, rfl, rfl, tagSearch_leftmost content _ se2 h2⟩
    | none =>
      have hout : parseVue path stem project content =
          [vueSectionChunk path stem project "script" content se1] := by
        simp only [parseVue, h1, h2]
        simp
      rw [hout]
      refine ⟨by simp [vueSectionChunk, List.countP_cons], ?_, ?_, ?_, ?_⟩
      · simp [vueSectionChunk, List.countP_cons]
      · intro i j hi hj hsi htj
        simp only [List.length_cons, List.length_nil] at hi hj
        interval_cases i <;> interval_cases j <;>
          simp_all [vueSectionChunk]
      · intro c hc hcs
        rcases List.mem_singleton.mp hc with rfl
        exact ⟨se1, rfl, rfl, tagSearch_leftmost content _ se1 h1⟩
      · intro c hc hct
        rcases List.mem_singleton.mp hc with rfl
        simp [vueSectionChunk] at hct
  | none =>
    cases h2 : tagSearch content ("template".toList) with
    | some se2 =>
      have hout : parseVue path stem project content =
          [vueSectionChunk path stem project "template" content se2] := by
        simp only [parseVue, h1, h2]
        simp
      rw [hout]
      refine ⟨by simp [vueSectionChunk, List.countP_cons], ?_, ?_, ?_, ?_⟩
      · simp [vueSectionChunk, List.countP_cons]
      · intro i j hi hj hsi htj
        simp only [List.length_cons, List.length_nil] at hi hj
        interval_cases i <;> interval_cases j <;>
          simp_all [vueSectionChunk]
      · intro c hc hcs
        rcases List.mem_singleton.mp hc with rfl
        simp [vueSectionChunk] at hcs
      · intro c hc hct
        rcases List.mem_singleton.mp hc with rfl
        exact ⟨se2, rfl, rfl, tagSearch_leftmost content _ se2 h2⟩
    | none =>
      have hout : parseVue path stem project content =
          [⟨content, path, "vue", project, "component", stem, 1,
            (pySplitlines content).length, []⟩] := by
        simp only [parseVue, h1, h2]
        simp
      rw [hout]
      refine ⟨by simp [List.countP_cons], ?_, ?_, ?_, ?_⟩
      · simp [List.countP_cons]
      · intro i j hi hj hsi htj
        simp only [List.length_cons, List.length_nil] at hi hj
        interval_cases i <;> interval_cases j <;> simp_all
      · intro c hc hcs
        rcases List.mem_singleton.mp hc with rfl
        simp at hcs
      · intro c hc hct
        rcases List.mem_singleton.mp hc with rfl
        simp at hct

/-- Witness for C10 at the template-before-script fixture: the script
chunk still precedes the template chunk in the output. -/
theorem claim_C10_vue_section_order_witness :
    ((parseVue "/x/B.vue" "B" "unknown" vueBothSrc).countP
        (fun c => c.chunk_type == "script") ≤ 1) ∧
    ((parseVue "/x/B.vue" "B" "unknown" vueBothSrc).map (fun c => c.chunk_type)) =
      ["script", "template"] := by
  refine ⟨(claim_C10_vue_section_order "/x/B.vue" "B" "unknown" vueBothSrc).1, ?_⟩
  decide

end CodebaseQA
